import Mathlib

/-!
Shallow embedding of `src/Sudoku_Solver.py` (classes `Cell` and `Board`, and the
module-level functions `solve_back`, `is_allowed`, `least_constr_val`, plus the
board-initialisation loop of `main`).

Modelling conventions:
* A grid position is `Fin 81` in row-major order; `board[i][j]` is position `9*i + j`.
  The identity triple `(box, row, col)` stored in `Cell.id` strings ("A11", ... "I99")
  is recovered arithmetically: the row letter digit is `rowOf p + 1`, the column digit
  is `colOf p + 1`, and the box letters A..I enumerate the nine 3x3 boxes row-major,
  i.e. box index `3 * (rowOf p / 3) + colOf p / 3`.
* The mutable board is the structure `St`: `cur p` is `cell.cur_val`, `dom p` is
  `cell.values` (the candidate domain list), `deg p` is `cell.assigned_neigh`.
  Python mutates cells in place through shared references; here every operation
  threads the whole `St` value explicitly.
* `Cell.neighbors` is set once by `Board.find_neighbors` and never written again
  (the only assignment is at line 127 of the source), so the neighbor list is
  embedded as the fixed function `find_neighbors` of the position alone; the stored
  list and the recomputed list always coincide.
* `initial_values` builds `set(range(1,10))` and removes assigned neighbor values;
  CPython iterates a set of the small ints 1..9 in ascending numeric order, so the
  resulting `list(all_poss)` is the ascending filtered list used here.
* Python exceptions (IndexError / ValueError in `fill_initial_board`, the
  impossible `None.neighbors` access in `backtrack_with_min_val`) are modelled as
  `Option`: `none` means the run raises instead of returning.
* `backtrack_with_min_val` recurses only after assigning a previously unassigned
  cell, so its recursion depth is bounded; the embedding takes explicit fuel and
  `solve_back` runs it with fuel 82, proven sufficient below.
* Python's `list.sort(key=...)` is a stable sort; `scoreSort` below is a stable
  insertion sort, which produces the identical list (the stably sorted permutation
  of a list is unique).
* `int(c)` on a clue character accepts the ASCII digits modelled by `Char.isDigit`
  (`'0'..'9'`) and raises `ValueError` otherwise.
-/

/-- Row index (0..8) of a position, from `cell.id[1]`. -/
def rowOf (p : Fin 81) : Nat := p.val / 9

/-- Column index (0..8) of a position, from `cell.id[2]`. -/
def colOf (p : Fin 81) : Nat := p.val % 9

/-- Box index (0..8) of a position, from the box letter `cell.id[0]` (A=0, ..., I=8). -/
def boxOf (p : Fin 81) : Nat := 3 * (rowOf p / 3) + colOf p / 3

/-- `Board.find_neighbors` (lines 106-130): every other cell sharing the box, row or
column, scanned in row-major order.  The cell itself is excluded by the
`id[1] == row and id[2] == col` test. -/
def find_neighbors (p : Fin 81) : List (Fin 81) :=
  (List.finRange 81).filter fun q =>
    !(decide (rowOf q = rowOf p) && decide (colOf q = colOf p)) &&
      (decide (boxOf q = boxOf p) || decide (rowOf q = rowOf p) ||
        decide (colOf q = colOf p))

/-- The mutable state of a `Board`: per-position `cur_val`, `values` and
`assigned_neigh` of each `Cell`. -/
structure St where
  cur : Fin 81 → Nat
  dom : Fin 81 → List Nat
  deg : Fin 81 → Nat

/-- Read `cell.cur_val`. -/
def curAt (s : St) (p : Fin 81) : Nat := s.cur p

/-- Read `cell.values`. -/
def domAt (s : St) (p : Fin 81) : List Nat := s.dom p

/-- Read `cell.assigned_neigh`. -/
def degAt (s : St) (p : Fin 81) : Nat := s.deg p

/-- `cell.set_current(number)` (line 34). -/
def setCurAt (p : Fin 81) (v : Nat) (s : St) : St :=
  { s with cur := fun q => if q = p then v else s.cur q }

/-- Assignment `cell.values = ...`. -/
def setDomAt (p : Fin 81) (l : List Nat) (s : St) : St :=
  { s with dom := fun q => if q = p then l else s.dom q }

/-- Assignment `cell.assigned_neigh = ...` (line 128). -/
def setDegAt (p : Fin 81) (n : Nat) (s : St) : St :=
  { s with deg := fun q => if q = p then n else s.deg q }

/-- The count `assigned` accumulated by `Board.find_neighbors` (lines 120-121):
how many neighbors currently hold a nonzero value. -/
def count_assigned (s : St) (p : Fin 81) : Nat :=
  ((find_neighbors p).filter fun q => decide (curAt s q ≠ 0)).length

/-- A fresh `Board()`: every cell unassigned with full domain `list(range(1,10))`
and `assigned_neigh = 0` (lines 21-26). -/
def freshBoard : St :=
  { cur := fun _ => 0, dom := fun _ => List.range' 1 9, deg := fun _ => 0 }

/-- `Board.initial_values(neighbors, cell)` (lines 136-147): recompute the domain
as `{1..9}` minus the values of assigned neighbors, store it in the cell and
return it.  The neighbor list is passed explicitly, as in the source. -/
def initial_values (s : St) (nbs : List (Fin 81)) (c : Fin 81) : List Nat × St :=
  let l := (List.range' 1 9).filter fun v =>
    nbs.all fun q => !(decide (curAt s q ≠ 0) && decide (curAt s q = v))
  (l, setDomAt c l s)

/-- `Board.board_is_solved` (lines 152-157): no cell holds 0. -/
def board_is_solved (s : St) : Bool :=
  (List.finRange 81).all fun p => !(decide (curAt s p = 0))

/-- `Board.degree(min_cell, other_cell)` (lines 207-212): keep the incumbent unless
the challenger has a strictly larger `assigned_neigh` snapshot. -/
def degree (s : St) (m c : Fin 81) : Fin 81 :=
  if degAt s c > degAt s m then c else m

/-- One iteration of the scan in `Board.find_less_poss` (lines 222-240), threading
the mutated board state: refresh the domain of each unassigned cell, track the
cell of minimal domain length, break ties with `degree`. -/
def flpStep (acc : Option (Fin 81) × Nat × St) (p : Fin 81) :
    Option (Fin 81) × Nat × St :=
  match acc with
  | (mc, ml, s) =>
    if curAt s p = 0 then
      let r := initial_values s (find_neighbors p) p
      let cl := r.1.length
      match mc with
      | none => (some p, cl, r.2)
      | some m =>
        if cl < ml then (some p, cl, r.2)
        else if cl = ml then
          let m2 := degree r.2 m p
          (some m2, (domAt r.2 m2).length, r.2)
        else (mc, ml, r.2)
    else acc

/-- `Board.find_less_poss` (lines 218-242): MRV scan over all cells in row-major
order starting from `min_len = 10`, `min_cell = None`; returns the selected cell
(or `none`) together with the board state, whose unassigned domains it refreshed. -/
def find_less_poss (s : St) : Option (Fin 81) × St :=
  let r := (List.finRange 81).foldl flpStep (none, 10, s)
  (r.1, r.2.2)

/-- Module-level `is_allowed(cell, value)` (lines 254-262): no neighbor currently
holds `value`. -/
def is_allowed (s : St) (c : Fin 81) (v : Nat) : Bool :=
  (find_neighbors c).all fun q => !(decide (curAt s q = v))

/-- The `constraints_imposed` score of a candidate value (lines 274-286): the
number of unassigned neighbors whose domain still contains it. -/
def lcvScore (s : St) (c : Fin 81) (v : Nat) : Nat :=
  (find_neighbors c).countP fun q =>
    decide (curAt s q = 0) && decide (v ∈ domAt s q)

/-- Stable insertion of a `(value, score)` pair before the first strictly larger
score; equal scores keep the incoming (earlier) element in front. -/
def scoreInsert (x : Nat × Nat) : List (Nat × Nat) → List (Nat × Nat)
  | [] => [x]
  | y :: ys => if x.2 ≤ y.2 then x :: y :: ys else y :: scoreInsert x ys

/-- Stable sort by score, modelling `value_scores.sort(key=lambda x: x[1])`
(line 290): Python's sort is stable and the stably sorted permutation is unique,
so insertion sort yields the identical list. -/
def scoreSort : List (Nat × Nat) → List (Nat × Nat)
  | [] => []
  | x :: xs => scoreInsert x (scoreSort xs)

/-- Module-level `least_constr_val(cell)` (lines 268-293): score each domain value,
stably sort by score ascending, return the values. -/
def least_constr_val (s : St) (c : Fin 81) : List Nat :=
  let value_scores := (domAt s c).map fun v => (v, lcvScore s c v)
  (scoreSort value_scores).map Prod.fst

/-- The `ordered_values` computed at lines 179-182 of `backtrack_with_min_val`:
LCV ordering only when the domain holds more than one candidate. -/
def orderedValues (s : St) (c : Fin 81) : List Nat :=
  if 1 < (domAt s c).length then least_constr_val s c else domAt s c

/-- The candidate loop of `backtrack_with_min_val` (lines 185-201), threading the
board state left behind by failed recursive calls; on exhaustion the selected
cell is reset to 0 and `False` is returned.  `none` from the recursive call
(impossible with sufficient fuel) is propagated. -/
def tryValues (recur : St → Option (Bool × St)) (c : Fin 81) :
    List Nat → St → Option (Bool × St)
  | [], s => some (false, setCurAt c 0 s)
  | v :: rest, s =>
    if is_allowed s c v then
      match recur (setCurAt c v s) with
      | none => none
      | some (true, t) => some (true, t)
      | some (false, t) => tryValues recur c rest t
    else tryValues recur c rest s

/-- `Board.backtrack_with_min_val` (lines 163-201) with explicit fuel: solved
boards succeed immediately; otherwise select the MRV cell, refresh its domain,
fail on an empty domain, and try the ordered candidates.  A `none` result models
a Python run that would exceed the given recursion depth (never the case with
fuel 82, proven below) or crash on `min_cell = None` (impossible, proven below);
the `pcell` parameter of the source is unused and omitted. -/
def backtrack_with_min_val : Nat → St → Option (Bool × St)
  | 0, _ => none
  | f + 1, s =>
    if board_is_solved s then some (true, s)
    else
      match find_less_poss s with
      | (none, _) => none
      | (some c, s1) =>
        let r := initial_values s1 (find_neighbors c) c
        if r.1 = [] then some (false, r.2)
        else tryValues (backtrack_with_min_val f) c (orderedValues r.2 c) r.2

/-- Module-level `solve_back(board)` (lines 250-252): start the backtracking
search (the `board[0,0]` argument is unused by the callee).  Fuel 82 never runs
out on a 9x9 board. -/
def solve_back (s : St) : Option (Bool × St) :=
  backtrack_with_min_val 82 s

/-- Result of Python `int(c)` for a single character: ASCII digits convert, any
other character raises `ValueError` (`none`). -/
def charDigit (c : Char) : Option Nat :=
  if c.isDigit then some (c.toNat - 48) else none

/-- The loop of `Board.fill_initial_board` (lines 92-101) from a given running
`count`: `'.'` is skipped, any other character is written to cell
`(count / 9, count % 9)`.  `count ≥ 81` raises `IndexError` when the cell is
fetched (before `int(c)` is evaluated), a non-digit raises `ValueError`. -/
def fillGo (s : St) : Nat → List Char → Option St
  | _, [] => some s
  | count, ch :: rest =>
    if ch = '.' then fillGo s (count + 1) rest
    else if h : count < 81 then
      match charDigit ch with
      | none => none
      | some d => fillGo (setCurAt ⟨count, h⟩ d s) (count + 1) rest
    else none

/-- `Board.fill_initial_board(str_board)` (lines 92-101). -/
def fill_initial_board (s : St) (cs : List Char) : Option St :=
  fillGo s 0 cs

/-- Characterises the clue strings on which `fill_initial_board` returns normally
(starting from running index `k`): every non-`'.'` character must be a digit
lying at an index below 81. -/
def wfGo : Nat → List Char → Bool
  | _, [] => true
  | k, ch :: rest =>
    if ch = '.' then wfGo (k + 1) rest
    else decide (k < 81) && ch.isDigit && wfGo (k + 1) rest

/-- The clue digit (if any) that the `fill_initial_board` loop starting at index
`k` writes to position `q`. -/
def clueAtFrom : Nat → List Char → Fin 81 → Option Nat
  | _, [], _ => none
  | k, ch :: rest, q =>
    if ch ≠ '.' ∧ q.val = k then some (ch.toNat - 48)
    else clueAtFrom (k + 1) rest q

/-- The value position `q` holds after the clues of `cs` are applied to a fresh
board: its clue digit, or 0. -/
def clueVal (cs : List Char) (q : Fin 81) : Nat :=
  (clueAtFrom 0 cs q).getD 0

/-- One iteration of the board-initialisation loop of `main` (lines 351-357) at
cell `p`: `find_neighbors` stores the `assigned_neigh` snapshot, then the whole
clue string is (re-)applied, then the cell's initial domain is computed. -/
def setupStep (cs : List Char) : Option St → Fin 81 → Option St
  | none, _ => none
  | some s, p =>
    match fill_initial_board (setDegAt p (count_assigned s p) s) cs with
    | none => none
    | some s2 => some ((initial_values s2 (find_neighbors p) p).2)

/-- The full board-initialisation loop of `main` (lines 348-357): a fresh board,
then for every cell in row-major order the `setupStep` above. -/
def setupBoard (cs : List Char) : Option St :=
  (List.finRange 81).foldl (setupStep cs) (some freshBoard)

/-- Number of unassigned cells of a state. -/
def unassignedCount (s : St) : Nat :=
  ((List.finRange 81).filter fun p => decide (curAt s p = 0)).length

/-- Position of the `i`-th cell of row `r`. -/
def rowPos (r i : Fin 9) : Fin 81 :=
  ⟨9 * r.val + i.val, by have := r.isLt; have := i.isLt; omega⟩

/-- Position of the `i`-th cell of column `c`. -/
def colPos (c i : Fin 9) : Fin 81 :=
  ⟨9 * i.val + c.val, by have := c.isLt; have := i.isLt; omega⟩

/-- Position of the `i`-th cell of box `b` (row-major inside the box). -/
def boxPos (b i : Fin 9) : Fin 81 :=
  ⟨9 * (3 * (b.val / 3) + i.val / 3) + (3 * (b.val % 3) + i.val % 3),
    by have := b.isLt; have := i.isLt; omega⟩

/-- The nine values of row `r`. -/
def rowVals (s : St) (r : Fin 9) : List Nat :=
  (List.finRange 9).map fun i => curAt s (rowPos r i)

/-- The nine values of column `c`. -/
def colVals (s : St) (c : Fin 9) : List Nat :=
  (List.finRange 9).map fun i => curAt s (colPos c i)

/-- The nine values of box `b`. -/
def boxVals (s : St) (b : Fin 9) : List Nat :=
  (List.finRange 9).map fun i => curAt s (boxPos b i)

/-- Whether the clue string contains two identical clues in the same row:
some two distinct non-`'.'` positions of the same row carry the same character. -/
def hasSameRowDupClues (cs : List Char) : Bool :=
  decide (∃ p q : Fin 81, p ≠ q ∧ rowOf p = rowOf q ∧
    (∃ d, clueAtFrom 0 cs p = some d ∧ d ≠ 0 ∧ clueAtFrom 0 cs q = some d))

/-- The refreshed domain of a cell: what `initial_values` computes for it from
the current assignments (reading the state, not writing it). -/
def refreshedDomain (s : St) (q : Fin 81) : List Nat :=
  (initial_values s (find_neighbors q) q).1

/-- One step of the selection rule of §4.3 of the spec, written from the claim's
words: scan unassigned cells, keep the incumbent, replace it by a challenger
with a strictly smaller refreshed domain, or, on equal sizes, by a challenger
with a strictly larger `assigned_neigh` snapshot (incumbent kept on equal
counts).  This is the specification-side definition compared against
`find_less_poss`. -/
def mrvSpecStep (s : St) (mc : Option (Fin 81)) (p : Fin 81) : Option (Fin 81) :=
  if curAt s p = 0 then
    match mc with
    | none => some p
    | some m =>
      if (refreshedDomain s p).length < (refreshedDomain s m).length then some p
      else if (refreshedDomain s p).length = (refreshedDomain s m).length ∧
          degAt s p > degAt s m then some p
      else mc
  else mc

/-- Specification-side variable selection: fold `mrvSpecStep` over the cells in
row-major order. -/
def find_less_poss_spec (s : St) : Option (Fin 81) :=
  (List.finRange 81).foldl (mrvSpecStep s) none

/-- A valid completed Sudoku grid as a function of the position: the value of
row r, column c is `(3*(r%3) + r/3 + c) % 9 + 1`. -/
def baseGrid (p : Fin 81) : Nat :=
  (3 * (rowOf p % 3) + rowOf p / 3 + colOf p) % 9 + 1

/-- A fully assigned board state holding `baseGrid` (used to instantiate
universally quantified theorems at a concrete solved board). -/
def stSolved : St :=
  { cur := baseGrid, dom := fun _ => List.range' 1 9, deg := fun _ => 0 }

/-- A board state one cell away from full, whose unassigned cell (position 0)
has an empty refreshed domain: its row holds 2..9 and position 9 below it holds
1, so the search fails immediately (used to instantiate theorems at a concrete
failing input). -/
def stFail : St :=
  { cur := fun p => if p.val = 0 then 0 else if p.val = 9 then 1 else baseGrid p,
    dom := fun _ => List.range' 1 9, deg := fun _ => 0 }

/-- A valid completed Sudoku grid, row-major (value of row r, col c is
`(3*(r%3) + r/3 + c) % 9 + 1`). -/
def csGood : String :=
  "123456789456789123789123456234567891567891234891234567345678912678912345912345678"

/-- `csGood` with the clue at row 0, column 1 replaced by a second `'1'`:
row 0 then holds two identical clues and misses the value 2. -/
def csBad : String :=
  "113456789456789123789123456234567891567891234891234567345678912678912345912345678"

/-! ## Frame lemmas for the three state fields -/

@[simp] theorem curAt_setCurAt (p : Fin 81) (v : Nat) (s : St) (q : Fin 81) :
    curAt (setCurAt p v s) q = if q = p then v else curAt s q := rfl

@[simp] theorem curAt_setDomAt (p : Fin 81) (l : List Nat) (s : St) (q : Fin 81) :
    curAt (setDomAt p l s) q = curAt s q := rfl

@[simp] theorem curAt_setDegAt (p : Fin 81) (n : Nat) (s : St) (q : Fin 81) :
    curAt (setDegAt p n s) q = curAt s q := rfl

@[simp] theorem domAt_setDomAt (p : Fin 81) (l : List Nat) (s : St) (q : Fin 81) :
    domAt (setDomAt p l s) q = if q = p then l else domAt s q := rfl

@[simp] theorem domAt_setCurAt (p : Fin 81) (v : Nat) (s : St) (q : Fin 81) :
    domAt (setCurAt p v s) q = domAt s q := rfl

@[simp] theorem domAt_setDegAt (p : Fin 81) (n : Nat) (s : St) (q : Fin 81) :
    domAt (setDegAt p n s) q = domAt s q := rfl

@[simp] theorem degAt_setCurAt (p : Fin 81) (v : Nat) (s : St) (q : Fin 81) :
    degAt (setCurAt p v s) q = degAt s q := rfl

@[simp] theorem degAt_setDomAt (p : Fin 81) (l : List Nat) (s : St) (q : Fin 81) :
    degAt (setDomAt p l s) q = degAt s q := rfl

@[simp] theorem degAt_setDegAt (p : Fin 81) (n : Nat) (s : St) (q : Fin 81) :
    degAt (setDegAt p n s) q = if q = p then n else degAt s q := rfl

/-! ## The constraint graph -/

theorem mem_find_neighbors {p q : Fin 81} :
    q ∈ find_neighbors p ↔
      ¬(rowOf q = rowOf p ∧ colOf q = colOf p) ∧
        (boxOf q = boxOf p ∨ rowOf q = rowOf p ∨ colOf q = colOf p) := by
  simp only [find_neighbors, List.mem_filter, List.mem_finRange, true_and,
    Bool.and_eq_true, Bool.or_eq_true, Bool.not_eq_true', Bool.and_eq_false_iff,
    decide_eq_true_eq, decide_eq_false_iff_not]
  tauto

theorem pos_eq_of_rowcol {p q : Fin 81} (hr : rowOf q = rowOf p)
    (hc : colOf q = colOf p) : q = p := by
  apply Fin.ext
  have hp := p.isLt
  have hq := q.isLt
  simp only [rowOf, colOf] at hr hc
  omega

theorem mem_find_neighbors_iff {p q : Fin 81} :
    q ∈ find_neighbors p ↔
      q ≠ p ∧ (boxOf q = boxOf p ∨ rowOf q = rowOf p ∨ colOf q = colOf p) := by
  rw [mem_find_neighbors]
  constructor
  · rintro ⟨h1, h2⟩
    exact ⟨fun he => h1 (by subst he; exact ⟨rfl, rfl⟩), h2⟩
  · rintro ⟨hne, h2⟩
    exact ⟨fun hrc => hne (pos_eq_of_rowcol hrc.1 hrc.2), h2⟩

theorem find_neighbors_symm {p q : Fin 81} :
    q ∈ find_neighbors p ↔ p ∈ find_neighbors q := by
  rw [mem_find_neighbors_iff, mem_find_neighbors_iff]
  constructor <;> rintro ⟨hne, h⟩ <;>
    exact ⟨hne.symm, h.imp Eq.symm (Or.imp Eq.symm Eq.symm)⟩

theorem self_not_mem_find_neighbors (p : Fin 81) : p ∉ find_neighbors p := by
  rw [mem_find_neighbors_iff]
  simp

theorem find_neighbors_nodup (p : Fin 81) : (find_neighbors p).Nodup :=
  (List.nodup_finRange 81).filter _

/-! ## Forward checking: `initial_values` -/

theorem initial_values_snd (s : St) (nbs : List (Fin 81)) (c : Fin 81) :
    (initial_values s nbs c).2 = setDomAt c (initial_values s nbs c).1 s := rfl

theorem curAt_initial_values (s : St) (nbs : List (Fin 81)) (c q : Fin 81) :
    curAt (initial_values s nbs c).2 q = curAt s q := rfl

theorem degAt_initial_values (s : St) (nbs : List (Fin 81)) (c q : Fin 81) :
    degAt (initial_values s nbs c).2 q = degAt s q := rfl

theorem domAt_initial_values_self (s : St) (nbs : List (Fin 81)) (c : Fin 81) :
    domAt (initial_values s nbs c).2 c = (initial_values s nbs c).1 := by
  simp [initial_values, domAt, setDomAt]

theorem mem_initial_values {s : St} {nbs : List (Fin 81)} {c : Fin 81} {v : Nat} :
    v ∈ (initial_values s nbs c).1 ↔
      (1 ≤ v ∧ v ≤ 9) ∧ ∀ q ∈ nbs, curAt s q ≠ 0 → curAt s q ≠ v := by
  simp only [initial_values, List.mem_filter, List.mem_range'_1, List.all_eq_true,
    Bool.not_eq_true', Bool.and_eq_false_iff, decide_eq_false_iff_not, not_not,
    decide_eq_true_eq]
  constructor
  · rintro ⟨⟨h1, h2⟩, h3⟩
    refine ⟨⟨h1, by omega⟩, fun q hq hne => ?_⟩
    rcases h3 q hq with h | h
    · exact absurd h hne
    · exact h
  · rintro ⟨⟨h1, h2⟩, h3⟩
    refine ⟨⟨h1, by omega⟩, fun q hq => ?_⟩
    by_cases h0 : curAt s q = 0
    · exact Or.inl h0
    · exact Or.inr (h3 q hq h0)

theorem initial_values_pos {s : St} {nbs : List (Fin 81)} {c : Fin 81} {v : Nat}
    (h : v ∈ (initial_values s nbs c).1) : 1 ≤ v ∧ v ≤ 9 :=
  (mem_initial_values.mp h).1

theorem initial_values_congr {s1 s2 : St} {nbs : List (Fin 81)} {c : Fin 81}
    (h : ∀ q ∈ nbs, curAt s1 q = curAt s2 q) :
    (initial_values s1 nbs c).1 = (initial_values s2 nbs c).1 := by
  simp only [initial_values]
  refine List.filter_congr fun v _ => ?_
  rw [Bool.eq_iff_iff]
  simp only [List.all_eq_true]
  constructor <;> intro hall q hq <;> have := hall q hq <;>
    rw [h q hq] at * <;> assumption

theorem find_neighbors_length : ∀ p : Fin 81, (find_neighbors p).length = 20 := by
  decide

/-! ## The stable sort used by `least_constr_val` -/

theorem scoreInsert_perm (x : Nat × Nat) (l : List (Nat × Nat)) :
    (scoreInsert x l).Perm (x :: l) := by
  induction l with
  | nil => exact List.Perm.refl _
  | cons y ys ih =>
    by_cases h : x.2 ≤ y.2
    · simp [scoreInsert, h]
    · simp only [scoreInsert, if_neg h]
      exact (List.Perm.cons y ih).trans (List.Perm.swap x y ys)

theorem scoreSort_perm (l : List (Nat × Nat)) : (scoreSort l).Perm l := by
  induction l with
  | nil => exact List.Perm.refl _
  | cons x xs ih =>
    exact (scoreInsert_perm x (scoreSort xs)).trans (List.Perm.cons x ih)

theorem mem_scoreInsert {x z : Nat × Nat} {l : List (Nat × Nat)} :
    z ∈ scoreInsert x l ↔ z = x ∨ z ∈ l := by
  rw [(scoreInsert_perm x l).mem_iff]
  simp

theorem scoreInsert_sorted {x : Nat × Nat} {l : List (Nat × Nat)}
    (h : l.Pairwise fun a b => a.2 ≤ b.2) :
    (scoreInsert x l).Pairwise fun a b => a.2 ≤ b.2 := by
  induction l with
  | nil => simp [scoreInsert]
  | cons y ys ih =>
    rcases List.pairwise_cons.mp h with ⟨hy, hys⟩
    by_cases hxy : x.2 ≤ y.2
    · simp only [scoreInsert, if_pos hxy]
      refine List.pairwise_cons.mpr ⟨?_, h⟩
      intro z hz
      rcases List.mem_cons.mp hz with hz | hz
      · subst hz; exact hxy
      · exact le_trans hxy (hy z hz)
    · simp only [scoreInsert, if_neg hxy]
      refine List.pairwise_cons.mpr ⟨?_, ih hys⟩
      intro z hz
      rcases mem_scoreInsert.mp hz with hz | hz
      · subst hz; omega
      · exact hy z hz

theorem scoreSort_sorted (l : List (Nat × Nat)) :
    (scoreSort l).Pairwise fun a b => a.2 ≤ b.2 := by
  induction l with
  | nil => simp [scoreSort]
  | cons x xs ih => exact scoreInsert_sorted ih

theorem scoreInsert_filter (x : Nat × Nat) (l : List (Nat × Nat)) (k : Nat) :
    (scoreInsert x l).filter (fun y => y.2 == k) =
      if x.2 = k then x :: l.filter (fun y => y.2 == k)
      else l.filter (fun y => y.2 == k) := by
  induction l with
  | nil => by_cases h : x.2 = k <;> simp [scoreInsert, List.filter_cons, h]
  | cons y ys ih =>
    by_cases hxy : x.2 ≤ y.2
    · simp only [scoreInsert, if_pos hxy, List.filter_cons]
      by_cases hx : x.2 = k <;> by_cases hy : y.2 = k <;> simp [hx, hy]
    · simp only [scoreInsert, if_neg hxy, List.filter_cons]
      by_cases hy : y.2 = k
      · have hx : ¬ x.2 = k := fun hx => hxy (by omega)
        simp [hy, hx, ih]
      · simp [hy, ih]

theorem scoreSort_filter (l : List (Nat × Nat)) (k : Nat) :
    (scoreSort l).filter (fun y => y.2 == k) = l.filter (fun y => y.2 == k) := by
  induction l with
  | nil => rfl
  | cons x xs ih =>
    rw [scoreSort, scoreInsert_filter, List.filter_cons]
    by_cases hx : x.2 = k
    · simp [hx, ih]
    · have : (x.2 == k) = false := by simp [hx]
      simp [hx, this, ih]

/-! ## Properties of `least_constr_val` and `orderedValues` -/

theorem least_constr_val_perm (s : St) (c : Fin 81) :
    (least_constr_val s c).Perm (domAt s c) := by
  unfold least_constr_val
  have h1 := (scoreSort_perm ((domAt s c).map fun v => (v, lcvScore s c v))).map
    Prod.fst
  simpa [List.map_map, Function.comp_def] using h1

theorem mem_scoreSort_scored {s : St} {c : Fin 81} {z : Nat × Nat}
    (h : z ∈ scoreSort ((domAt s c).map fun v => (v, lcvScore s c v))) :
    z.2 = lcvScore s c z.1 := by
  have := (scoreSort_perm _).mem_iff.mp h
  rcases List.mem_map.mp this with ⟨v, _, hv⟩
  rw [← hv]

theorem least_constr_val_sorted (s : St) (c : Fin 81) :
    (least_constr_val s c).Pairwise
      fun a b => lcvScore s c a ≤ lcvScore s c b := by
  unfold least_constr_val
  rw [List.pairwise_map]
  refine List.Pairwise.imp_of_mem ?_ (scoreSort_sorted _)
  intro a b ha hb hab
  rw [← mem_scoreSort_scored ha, ← mem_scoreSort_scored hb]
  exact hab

theorem filter_map_fst {f : Nat → Nat} {k : Nat} :
    ∀ {L : List (Nat × Nat)}, (∀ z ∈ L, z.2 = f z.1) →
      (L.map Prod.fst).filter (fun v => f v == k) =
        (L.filter fun z => z.2 == k).map Prod.fst := by
  intro L
  induction L with
  | nil => intro _; rfl
  | cons z L ih =>
    intro h
    have hz := h z (List.mem_cons_self z L)
    have hL := fun w hw => h w (List.mem_cons_of_mem z hw)
    simp only [List.map_cons, List.filter_cons, ← hz]
    by_cases hk : z.2 = k
    · simp [hk, ih hL]
    · simp [hk, ih hL]

theorem least_constr_val_stable (s : St) (c : Fin 81) (k : Nat) :
    (least_constr_val s c).filter (fun v => lcvScore s c v == k) =
      (domAt s c).filter (fun v => lcvScore s c v == k) := by
  unfold least_constr_val
  rw [filter_map_fst fun z hz => mem_scoreSort_scored hz, scoreSort_filter,
    ← filter_map_fst fun z hz => (by rcases List.mem_map.mp hz with ⟨v, _, hv⟩; rw [← hv])]
  simp [List.map_map, Function.comp_def]

theorem mem_orderedValues {s : St} {c : Fin 81} {v : Nat}
    (h : v ∈ orderedValues s c) : v ∈ domAt s c := by
  unfold orderedValues at h
  by_cases h1 : 1 < (domAt s c).length
  · rw [if_pos h1] at h
    exact (least_constr_val_perm s c).mem_iff.mp h
  · rwa [if_neg h1] at h

/-! ## Characterising `fill_initial_board` and the `main` initialisation loop -/

theorem fillGo_isSome : ∀ (cs : List Char) (k : Nat) (s : St),
    (fillGo s k cs).isSome = wfGo k cs := by
  intro cs
  induction cs with
  | nil => intro k s; rfl
  | cons ch rest ih =>
    intro k s
    by_cases hdot : ch = '.'
    · simp [fillGo, wfGo, hdot, ih]
    · by_cases hk : k < 81
      · by_cases hd : ch.isDigit
        · simp [fillGo, wfGo, hdot, hk, hd, charDigit, ih]
        · simp [fillGo, wfGo, hdot, hk, hd, charDigit]
      · simp [fillGo, wfGo, hdot, hk]

theorem clueAtFrom_none_of_lt :
    ∀ (cs : List Char) (k : Nat) (q : Fin 81), q.val < k → clueAtFrom k cs q = none := by
  intro cs
  induction cs with
  | nil => intro k q _; rfl
  | cons ch rest ih =>
    intro k q hq
    unfold clueAtFrom
    rw [if_neg fun h => absurd h.2 (by omega)]
    exact ih (k + 1) q (by omega)

theorem fillGo_char :
    ∀ (cs : List Char) (k : Nat) (s : St), wfGo k cs = true →
      ∃ t, fillGo s k cs = some t ∧
        (∀ q, curAt t q = (clueAtFrom k cs q).getD (curAt s q)) ∧
        (∀ q, domAt t q = domAt s q) ∧ (∀ q, degAt t q = degAt s q) := by
  intro cs
  induction cs with
  | nil =>
    intro k s _
    exact ⟨s, rfl, fun q => rfl, fun q => rfl, fun q => rfl⟩
  | cons ch rest ih =>
    intro k s hwf
    by_cases hdot : ch = '.'
    · rw [wfGo, if_pos hdot] at hwf
      obtain ⟨t, ht, hcur, hdom, hdeg⟩ := ih (k + 1) s hwf
      refine ⟨t, ?_, fun q => ?_, hdom, hdeg⟩
      · rw [fillGo, if_pos hdot]; exact ht
      · rw [hcur q, clueAtFrom, if_neg fun h => h.1 hdot]
    · rw [wfGo, if_neg hdot, Bool.and_eq_true, Bool.and_eq_true] at hwf
      obtain ⟨⟨hk, hd⟩, hrest⟩ := hwf
      rw [decide_eq_true_eq] at hk
      obtain ⟨t, ht, hcur, hdom, hdeg⟩ := ih (k + 1) (setCurAt ⟨k, hk⟩ (ch.toNat - 48) s) hrest
      refine ⟨t, ?_, fun q => ?_, fun q => (hdom q).trans rfl, fun q => (hdeg q).trans rfl⟩
      · rw [fillGo, if_neg hdot, dif_pos hk]
        unfold charDigit
        rw [if_pos hd]
        exact ht
      · rw [hcur q, clueAtFrom]
        by_cases hq : q.val = k
        · rw [if_pos ⟨hdot, hq⟩, clueAtFrom_none_of_lt rest (k + 1) q (by omega)]
          have : q = ⟨k, hk⟩ := Fin.ext hq
          simp [this]
        · rw [if_neg fun h => hq h.2]
          have : ¬ q = ⟨k, hk⟩ := fun h => hq (by rw [h])
          simp [this]

theorem fill_initial_board_char {cs : List Char} (hwf : wfGo 0 cs = true) (s : St) :
    ∃ t, fill_initial_board s cs = some t ∧
      (∀ q, curAt t q = (clueAtFrom 0 cs q).getD (curAt s q)) ∧
      (∀ q, domAt t q = domAt s q) ∧ (∀ q, degAt t q = degAt s q) :=
  fillGo_char cs 0 s hwf

theorem clue_getD_getD (cs : List Char) (q : Fin 81) (x : Nat) :
    (clueAtFrom 0 cs q).getD ((clueAtFrom 0 cs q).getD x) =
      (clueAtFrom 0 cs q).getD x := by
  cases clueAtFrom 0 cs q <;> rfl

theorem setupStep_char {cs : List Char} (hwf : wfGo 0 cs = true) {s : St}
    (hK : ∀ q, curAt s q = clueVal cs q) (p : Fin 81) :
    ∃ t, setupStep cs (some s) p = some t ∧ ∀ q, curAt t q = clueVal cs q := by
  obtain ⟨t2, ht2, hcur, _, _⟩ :=
    fill_initial_board_char hwf (setDegAt p (count_assigned s p) s)
  refine ⟨(initial_values t2 (find_neighbors p) p).2, ?_, fun q => ?_⟩
  · show (match fill_initial_board (setDegAt p (count_assigned s p) s) cs with
      | none => none
      | some s2 => some ((initial_values s2 (find_neighbors p) p).2)) =
        some ((initial_values t2 (find_neighbors p) p).2)
    rw [ht2]
  · rw [curAt_initial_values, hcur q]
    show (clueAtFrom 0 cs q).getD (curAt s q) = clueVal cs q
    rw [hK q]
    exact clue_getD_getD cs q 0

theorem setup_fold {cs : List Char} (hwf : wfGo 0 cs = true) :
    ∀ (l : List (Fin 81)) (s : St), (∀ q, curAt s q = clueVal cs q) →
      ∃ t, l.foldl (setupStep cs) (some s) = some t ∧
        ∀ q, curAt t q = clueVal cs q := by
  intro l
  induction l with
  | nil => intro s hK; exact ⟨s, rfl, hK⟩
  | cons p l ih =>
    intro s hK
    obtain ⟨t1, ht1, hK1⟩ := setupStep_char hwf hK p
    obtain ⟨t, ht, hKt⟩ := ih t1 hK1
    refine ⟨t, ?_, hKt⟩
    rw [List.foldl_cons, ht1]
    exact ht

theorem setupBoard_char {cs : List Char} (hwf : wfGo 0 cs = true) :
    ∃ t, setupBoard cs = some t ∧ ∀ q, curAt t q = clueVal cs q := by
  unfold setupBoard
  have h81 : List.finRange 81 = (0 : Fin 81) :: (List.finRange 80).map Fin.succ :=
    List.finRange_succ_eq_map 80
  rw [h81, List.foldl_cons]
  have hfresh : ∀ q, (clueAtFrom 0 cs q).getD (curAt freshBoard q) = clueVal cs q :=
    fun q => rfl
  obtain ⟨t2, ht2, hcur, _, _⟩ :=
    fill_initial_board_char hwf (setDegAt 0 (count_assigned freshBoard 0) freshBoard)
  have hstep : setupStep cs (some freshBoard) 0 =
      some ((initial_values t2 (find_neighbors 0) 0).2) := by
    show (match fill_initial_board
        (setDegAt 0 (count_assigned freshBoard 0) freshBoard) cs with
      | none => none
      | some s2 => some ((initial_values s2 (find_neighbors 0) 0).2)) =
        some ((initial_values t2 (find_neighbors 0) 0).2)
    rw [ht2]
  rw [hstep]
  refine setup_fold hwf _ _ fun q => ?_
  rw [curAt_initial_values, hcur q]
  exact hfresh q

/-! ## The MRV scan: `find_less_poss` -/

theorem flpStep_cur (acc : Option (Fin 81) × Nat × St) (p q : Fin 81) :
    curAt (flpStep acc p).2.2 q = curAt acc.2.2 q := by
  rcases acc with ⟨mc, ml, sa⟩
  by_cases h : curAt sa p = 0
  · cases mc with
    | none => simp [flpStep, h, curAt_initial_values]
    | some m =>
      by_cases h1 : (initial_values sa (find_neighbors p) p).1.length < ml
      · simp [flpStep, h, h1, curAt_initial_values]
      · by_cases h2 : (initial_values sa (find_neighbors p) p).1.length = ml
        · simp [flpStep, h, h1, h2, curAt_initial_values]
        · simp [flpStep, h, h1, h2, curAt_initial_values]
  · simp [flpStep, h]

theorem flpStep_deg (acc : Option (Fin 81) × Nat × St) (p q : Fin 81) :
    degAt (flpStep acc p).2.2 q = degAt acc.2.2 q := by
  rcases acc with ⟨mc, ml, sa⟩
  by_cases h : curAt sa p = 0
  · cases mc with
    | none => simp [flpStep, h, degAt_initial_values]
    | some m =>
      by_cases h1 : (initial_values sa (find_neighbors p) p).1.length < ml
      · simp [flpStep, h, h1, degAt_initial_values]
      · by_cases h2 : (initial_values sa (find_neighbors p) p).1.length = ml
        · simp [flpStep, h, h1, h2, degAt_initial_values]
        · simp [flpStep, h, h1, h2, degAt_initial_values]
  · simp [flpStep, h]



theorem flp_fold (s : St) :
    ∀ (l : List (Fin 81)) (mc : Option (Fin 81)) (ml : Nat) (sa : St),
      (∀ q, curAt sa q = curAt s q) →
      (∀ q, degAt sa q = degAt s q) →
      (∀ m, mc = some m → domAt sa m = refreshedDomain s m) →
      (∀ m, mc = some m → ml = (refreshedDomain s m).length) →
      (∀ q, curAt (l.foldl flpStep (mc, ml, sa)).2.2 q = curAt s q) ∧
      (∀ q, degAt (l.foldl flpStep (mc, ml, sa)).2.2 q = degAt s q) ∧
      (∀ m, (l.foldl flpStep (mc, ml, sa)).1 = some m →
        domAt (l.foldl flpStep (mc, ml, sa)).2.2 m = refreshedDomain s m ∧
        (l.foldl flpStep (mc, ml, sa)).2.1 = (refreshedDomain s m).length) ∧
      ((l.foldl flpStep (mc, ml, sa)).1 = l.foldl (mrvSpecStep s) mc) ∧
      (∀ q, curAt s q = 0 → q ∈ l →
        domAt (l.foldl flpStep (mc, ml, sa)).2.2 q = refreshedDomain s q) ∧
      (∀ q, ¬(curAt s q = 0 ∧ q ∈ l) →
        domAt (l.foldl flpStep (mc, ml, sa)).2.2 q = domAt sa q) := by
  intro l
  induction l with
  | nil =>
    intro mc ml sa hcur hdeg hmdom hml
    refine ⟨hcur, hdeg, fun m hm => ⟨hmdom m hm, hml m hm⟩, rfl, ?_, fun q _ => rfl⟩
    intro q _ hq
    exact absurd hq (List.not_mem_nil q)
  | cons p l ih =>
    intro mc ml sa hcur hdeg hmdom hml
    rw [List.foldl_cons, List.foldl_cons]
    by_cases hp : curAt sa p = 0
    · have hps : curAt s p = 0 := by rw [← hcur p]; exact hp
      have hr : (initial_values sa (find_neighbors p) p).1 = refreshedDomain s p :=
        initial_values_congr fun q _ => hcur q
      have hstate : (initial_values sa (find_neighbors p) p).2 =
          setDomAt p (refreshedDomain s p) sa := by
        rw [initial_values_snd, hr]
      have hcur2 : ∀ q, curAt (setDomAt p (refreshedDomain s p) sa) q = curAt s q :=
        fun q => hcur q
      have hdeg2 : ∀ q, degAt (setDomAt p (refreshedDomain s p) sa) q = degAt s q :=
        fun q => hdeg q
      have hdomp : domAt (setDomAt p (refreshedDomain s p) sa) p =
          refreshedDomain s p := by simp
      have main : ∀ m2 : Fin 81,
          domAt (setDomAt p (refreshedDomain s p) sa) m2 = refreshedDomain s m2 →
          mrvSpecStep s mc p = some m2 →
          flpStep (mc, ml, sa) p =
            (some m2, (refreshedDomain s m2).length,
              setDomAt p (refreshedDomain s p) sa) →
          (∀ q, curAt (l.foldl flpStep (flpStep (mc, ml, sa) p)).2.2 q = curAt s q) ∧
          (∀ q, degAt (l.foldl flpStep (flpStep (mc, ml, sa) p)).2.2 q = degAt s q) ∧
          (∀ m, (l.foldl flpStep (flpStep (mc, ml, sa) p)).1 = some m →
            domAt (l.foldl flpStep (flpStep (mc, ml, sa) p)).2.2 m =
              refreshedDomain s m ∧
            (l.foldl flpStep (flpStep (mc, ml, sa) p)).2.1 =
              (refreshedDomain s m).length) ∧
          ((l.foldl flpStep (flpStep (mc, ml, sa) p)).1 =
            l.foldl (mrvSpecStep s) (mrvSpecStep s mc p)) ∧
          (∀ q, curAt s q = 0 → q ∈ p :: l →
            domAt (l.foldl flpStep (flpStep (mc, ml, sa) p)).2.2 q =
              refreshedDomain s q) ∧
          (∀ q, ¬(curAt s q = 0 ∧ q ∈ p :: l) →
            domAt (l.foldl flpStep (flpStep (mc, ml, sa) p)).2.2 q = domAt sa q) := by
        intro m2 hdm2 hspec hstep
        rw [hstep, hspec]
        obtain ⟨ih1, ih2, ih3, ih4, ih5, ih6⟩ :=
          ih (some m2) ((refreshedDomain s m2).length)
            (setDomAt p (refreshedDomain s p) sa) hcur2 hdeg2
            (fun m hm => by injection hm with hm; subst hm; exact hdm2)
            (fun m hm => by injection hm with hm; subst hm; rfl)
        refine ⟨ih1, ih2, ih3, ih4, ?_, ?_⟩
        · intro q hq hmem
          rcases List.mem_cons.mp hmem with hqp | hqm
          · subst hqp
            by_cases hin : q ∈ l
            · exact ih5 q hq hin
            · rw [ih6 q fun h => hin h.2]
              exact hdomp
          · exact ih5 q hq hqm
        · intro q hq
          have hqp : ¬ q = p := fun h =>
            hq ⟨by rw [h]; exact hps, by rw [h]; exact List.mem_cons_self p l⟩
          have hql : ¬(curAt s q = 0 ∧ q ∈ l) := fun h =>
            hq ⟨h.1, List.mem_cons_of_mem p h.2⟩
          rw [ih6 q hql, domAt_setDomAt, if_neg hqp]
      cases mc with
      | none =>
        refine main p hdomp (by simp [mrvSpecStep, hps]) ?_
        show (if curAt sa p = 0 then
            ((some p : Option (Fin 81)),
              (initial_values sa (find_neighbors p) p).1.length,
              (initial_values sa (find_neighbors p) p).2)
          else (none, ml, sa)) = _
        rw [if_pos hp, hr, hstate]
      | some m =>
        have hmleq := hml m rfl
        subst hmleq
        have hdsam : domAt sa m = refreshedDomain s m := hmdom m rfl
        by_cases hlt : (refreshedDomain s p).length < (refreshedDomain s m).length
        · refine main p hdomp (by simp [mrvSpecStep, hps, hlt]) ?_
          show (if curAt sa p = 0 then
              if (initial_values sa (find_neighbors p) p).1.length <
                  (refreshedDomain s m).length then
                ((some p : Option (Fin 81)),
                  (initial_values sa (find_neighbors p) p).1.length,
                  (initial_values sa (find_neighbors p) p).2)
              else if (initial_values sa (find_neighbors p) p).1.length =
                  (refreshedDomain s m).length then
                (some (degree (initial_values sa (find_neighbors p) p).2 m p),
                  (domAt (initial_values sa (find_neighbors p) p).2
                    (degree (initial_values sa (find_neighbors p) p).2 m p)).length,
                  (initial_values sa (find_neighbors p) p).2)
              else (some m, (refreshedDomain s m).length,
                (initial_values sa (find_neighbors p) p).2)
            else (some m, (refreshedDomain s m).length, sa)) = _
          rw [if_pos hp, hr, hstate, if_pos hlt]
        · have hdegree : degree (setDomAt p (refreshedDomain s p) sa) m p =
              if degAt s p > degAt s m then p else m := by
            unfold degree
            rw [show degAt (setDomAt p (refreshedDomain s p) sa) p = degAt s p from
              hdeg2 p, show degAt (setDomAt p (refreshedDomain s p) sa) m = degAt s m from
              hdeg2 m]
          by_cases heq : (refreshedDomain s p).length = (refreshedDomain s m).length
          · by_cases hdg : degAt s p > degAt s m
            · refine main p hdomp ?_ ?_
              · simp [mrvSpecStep, hps, hlt, heq, hdg]
              · show (if curAt sa p = 0 then
                    if (initial_values sa (find_neighbors p) p).1.length <
                        (refreshedDomain s m).length then
                      ((some p : Option (Fin 81)),
                        (initial_values sa (find_neighbors p) p).1.length,
                        (initial_values sa (find_neighbors p) p).2)
                    else if (initial_values sa (find_neighbors p) p).1.length =
                        (refreshedDomain s m).length then
                      (some (degree (initial_values sa (find_neighbors p) p).2 m p),
                        (domAt (initial_values sa (find_neighbors p) p).2
                          (degree (initial_values sa (find_neighbors p) p).2 m p)).length,
                        (initial_values sa (find_neighbors p) p).2)
                    else (some m, (refreshedDomain s m).length,
                      (initial_values sa (find_neighbors p) p).2)
                  else (some m, (refreshedDomain s m).length, sa)) = _
                rw [if_pos hp, hr, hstate, if_neg hlt, if_pos heq, hdegree,
                  if_pos hdg, hdomp]
            · have hdm2 : domAt (setDomAt p (refreshedDomain s p) sa) m =
                  refreshedDomain s m := by
                by_cases hmp : m = p
                · subst hmp
                  exact hdomp
                · rw [domAt_setDomAt, if_neg hmp]
                  exact hdsam
              refine main m hdm2 ?_ ?_
              · simp [mrvSpecStep, hps, hlt, heq, hdg]
              · show (if curAt sa p = 0 then
                    if (initial_values sa (find_neighbors p) p).1.length <
                        (refreshedDomain s m).length then
                      ((some p : Option (Fin 81)),
                        (initial_values sa (find_neighbors p) p).1.length,
                        (initial_values sa (find_neighbors p) p).2)
                    else if (initial_values sa (find_neighbors p) p).1.length =
                        (refreshedDomain s m).length then
                      (some (degree (initial_values sa (find_neighbors p) p).2 m p),
                        (domAt (initial_values sa (find_neighbors p) p).2
                          (degree (initial_values sa (find_neighbors p) p).2 m p)).length,
                        (initial_values sa (find_neighbors p) p).2)
                    else (some m, (refreshedDomain s m).length,
                      (initial_values sa (find_neighbors p) p).2)
                  else (some m, (refreshedDomain s m).length, sa)) = _
                rw [if_pos hp, hr, hstate, if_neg hlt, if_pos heq, hdegree,
                  if_neg hdg, hdm2]
          · have hmp : ¬ m = p := fun hmp => heq (by rw [hmp])
            have hdm2 : domAt (setDomAt p (refreshedDomain s p) sa) m =
                refreshedDomain s m := by
              rw [domAt_setDomAt, if_neg hmp]
              exact hdsam
            refine main m hdm2 ?_ ?_
            · simp [mrvSpecStep, hps, hlt, heq]
            · show (if curAt sa p = 0 then
                  if (initial_values sa (find_neighbors p) p).1.length <
                      (refreshedDomain s m).length then
                    ((some p : Option (Fin 81)),
                      (initial_values sa (find_neighbors p) p).1.length,
                      (initial_values sa (find_neighbors p) p).2)
                  else if (initial_values sa (find_neighbors p) p).1.length =
                      (refreshedDomain s m).length then
                    (some (degree (initial_values sa (find_neighbors p) p).2 m p),
                      (domAt (initial_values sa (find_neighbors p) p).2
                        (degree (initial_values sa (find_neighbors p) p).2 m p)).length,
                      (initial_values sa (find_neighbors p) p).2)
                  else (some m, (refreshedDomain s m).length,
                    (initial_values sa (find_neighbors p) p).2)
                else (some m, (refreshedDomain s m).length, sa)) = _
              rw [if_pos hp, hr, hstate, if_neg hlt, if_neg heq]
    · have hps : ¬ curAt s p = 0 := by rw [← hcur p]; exact hp
      have hstep : flpStep (mc, ml, sa) p = (mc, ml, sa) := by
        rcases mc with _ | m
        · show (if curAt sa p = 0 then
              ((some p : Option (Fin 81)),
                (initial_values sa (find_neighbors p) p).1.length,
                (initial_values sa (find_neighbors p) p).2)
            else (none, ml, sa)) = _
          rw [if_neg hp]
        · show (if curAt sa p = 0 then
              if (initial_values sa (find_neighbors p) p).1.length < ml then
                ((some p : Option (Fin 81)),
                  (initial_values sa (find_neighbors p) p).1.length,
                  (initial_values sa (find_neighbors p) p).2)
              else if (initial_values sa (find_neighbors p) p).1.length = ml then
                (some (degree (initial_values sa (find_neighbors p) p).2 m p),
                  (domAt (initial_values sa (find_neighbors p) p).2
                    (degree (initial_values sa (find_neighbors p) p).2 m p)).length,
                  (initial_values sa (find_neighbors p) p).2)
              else (some m, ml, (initial_values sa (find_neighbors p) p).2)
            else (some m, ml, sa)) = _
          rw [if_neg hp]
      have hspec : mrvSpecStep s mc p = mc := by
        simp [mrvSpecStep, hps]
      rw [hstep, hspec]
      obtain ⟨ih1, ih2, ih3, ih4, ih5, ih6⟩ := ih mc ml sa hcur hdeg hmdom hml
      refine ⟨ih1, ih2, ih3, ih4, ?_, ?_⟩
      · intro q hq hmem
        rcases List.mem_cons.mp hmem with hqp | hqm
        · subst hqp
          exact absurd hq hps
        · exact ih5 q hq hqm
      · intro q hq
        exact ih6 q fun h => hq ⟨h.1, List.mem_cons_of_mem p h.2⟩

theorem find_less_poss_eq (s : St) :
    find_less_poss s =
      (((List.finRange 81).foldl flpStep (none, 10, s)).1,
        ((List.finRange 81).foldl flpStep (none, 10, s)).2.2) := rfl

set_option maxHeartbeats 1600000 in
theorem flp_fold_inst (s : St) :
    (∀ q, curAt (find_less_poss s).2 q = curAt s q) ∧
    (∀ q, degAt (find_less_poss s).2 q = degAt s q) ∧
    ((find_less_poss s).1 = find_less_poss_spec s) ∧
    (∀ q, curAt s q = 0 → domAt (find_less_poss s).2 q = refreshedDomain s q) ∧
    (∀ q, curAt s q ≠ 0 → domAt (find_less_poss s).2 q = domAt s q) := by
  simp only [find_less_poss_eq]
  have h := flp_fold s (List.finRange 81) none 10 s (fun _ => rfl) (fun _ => rfl)
    (fun m hm => by cases hm) (fun m hm => by cases hm)
  exact ⟨h.1, h.2.1, h.2.2.2.1, fun q hq => h.2.2.2.2.1 q hq (List.mem_finRange q),
    fun q hq => h.2.2.2.2.2 q fun hc => hq hc.1⟩

theorem find_less_poss_cur (s : St) (q : Fin 81) :
    curAt (find_less_poss s).2 q = curAt s q :=
  (flp_fold_inst s).1 q

theorem find_less_poss_deg (s : St) (q : Fin 81) :
    degAt (find_less_poss s).2 q = degAt s q :=
  (flp_fold_inst s).2.1 q

theorem find_less_poss_fst (s : St) :
    (find_less_poss s).1 = find_less_poss_spec s :=
  (flp_fold_inst s).2.2.1

theorem find_less_poss_dom_refreshed (s : St) (q : Fin 81) (h : curAt s q = 0) :
    domAt (find_less_poss s).2 q = refreshedDomain s q :=
  (flp_fold_inst s).2.2.2.1 q h

theorem find_less_poss_dom_keep (s : St) (q : Fin 81) (h : curAt s q ≠ 0) :
    domAt (find_less_poss s).2 q = domAt s q :=
  (flp_fold_inst s).2.2.2.2 q h

theorem mrvSpecStep_isSome {s : St} {mc : Option (Fin 81)} {p : Fin 81}
    (h : mc.isSome = true ∨ curAt s p = 0) :
    (mrvSpecStep s mc p).isSome = true := by
  rcases mc with _ | m
  · rcases h with h | h
    · simp at h
    · simp [mrvSpecStep, h]
  · by_cases hps : curAt s p = 0
    · show (if curAt s p = 0 then
          if (refreshedDomain s p).length < (refreshedDomain s m).length then
            (some p : Option (Fin 81))
          else if (refreshedDomain s p).length = (refreshedDomain s m).length ∧
              degAt s p > degAt s m then some p
          else some m
        else some m).isSome = true
      split_ifs <;> rfl
    · show (if curAt s p = 0 then
          if (refreshedDomain s p).length < (refreshedDomain s m).length then
            (some p : Option (Fin 81))
          else if (refreshedDomain s p).length = (refreshedDomain s m).length ∧
              degAt s p > degAt s m then some p
          else some m
        else some m).isSome = true
      rw [if_neg hps]
      rfl

theorem mrvSpec_fold_isSome (s : St) :
    ∀ (l : List (Fin 81)) (mc : Option (Fin 81)),
      (mc.isSome = true ∨ ∃ q ∈ l, curAt s q = 0) →
      (l.foldl (mrvSpecStep s) mc).isSome = true := by
  intro l
  induction l with
  | nil =>
    intro mc h
    rcases h with h | ⟨q, hq, _⟩
    · exact h
    · exact absurd hq (List.not_mem_nil q)
  | cons p l ih =>
    intro mc h
    rw [List.foldl_cons]
    refine ih _ ?_
    rcases h with h | ⟨q, hq, hq0⟩
    · exact Or.inl (mrvSpecStep_isSome (Or.inl h))
    · rcases List.mem_cons.mp hq with hqp | hqm
      · subst hqp
        exact Or.inl (mrvSpecStep_isSome (Or.inr hq0))
      · exact Or.inr ⟨q, hqm, hq0⟩

theorem mrvSpec_fold_unassigned (s : St) :
    ∀ (l : List (Fin 81)) (mc : Option (Fin 81)),
      (∀ m, mc = some m → curAt s m = 0) →
      ∀ m, l.foldl (mrvSpecStep s) mc = some m → curAt s m = 0 := by
  intro l
  induction l with
  | nil => intro mc h m hm; exact h m hm
  | cons p l ih =>
    intro mc h m hm
    rw [List.foldl_cons] at hm
    refine ih _ ?_ m hm
    intro m1 hm1
    by_cases hps : curAt s p = 0
    · rcases mc with _ | m0
      · rw [show mrvSpecStep s none p = some p from by simp [mrvSpecStep, hps]] at hm1
        injection hm1 with hm1
        subst hm1
        exact hps
      · by_cases hlt : (refreshedDomain s p).length < (refreshedDomain s m0).length
        · rw [show mrvSpecStep s (some m0) p = some p from by
            simp [mrvSpecStep, hps, hlt]] at hm1
          injection hm1 with hm1
          subst hm1
          exact hps
        · by_cases hcond : (refreshedDomain s p).length =
              (refreshedDomain s m0).length ∧ degAt s p > degAt s m0
          · rw [show mrvSpecStep s (some m0) p = some p from by
              simp only [mrvSpecStep, if_pos hps, if_neg hlt, if_pos hcond]] at hm1
            injection hm1 with hm1
            subst hm1
            exact hps
          · rw [show mrvSpecStep s (some m0) p = some m0 from by
              simp only [mrvSpecStep, if_pos hps, if_neg hlt, if_neg hcond]] at hm1
            exact h m1 hm1
    · rw [show mrvSpecStep s mc p = mc from by simp [mrvSpecStep, hps]] at hm1
      exact h m1 hm1

theorem mrvSpec_fold_min (s : St) :
    ∀ (l : List (Fin 81)) (mc : Option (Fin 81)) (m : Fin 81),
      l.foldl (mrvSpecStep s) mc = some m →
      (∀ q ∈ l, curAt s q = 0 →
        (refreshedDomain s m).length ≤ (refreshedDomain s q).length) ∧
      (∀ m0, mc = some m0 →
        (refreshedDomain s m).length ≤ (refreshedDomain s m0).length) := by
  intro l
  induction l with
  | nil =>
    intro mc m hm
    refine ⟨fun q hq => absurd hq (List.not_mem_nil q), fun m0 hm0 => ?_⟩
    rw [hm0] at hm
    injection hm with hm
    subst hm
    exact le_refl _
  | cons p l ih =>
    intro mc m hm
    rw [List.foldl_cons] at hm
    obtain ⟨ihA, ihB⟩ := ih (mrvSpecStep s mc p) m hm
    by_cases hps : curAt s p = 0
    · cases mc with
      | none =>
        have hstep : mrvSpecStep s none p = some p := by simp [mrvSpecStep, hps]
        refine ⟨fun q hq hq0 => ?_, fun m0 hm0 => by cases hm0⟩
        rcases List.mem_cons.mp hq with hqp | hqm
        · subst hqp
          exact ihB q hstep
        · exact ihA q hqm hq0
      | some m0 =>
        by_cases hlt : (refreshedDomain s p).length < (refreshedDomain s m0).length
        · have hstep : mrvSpecStep s (some m0) p = some p := by
            simp [mrvSpecStep, hps, hlt]
          have hmp := ihB p hstep
          refine ⟨fun q hq hq0 => ?_, fun m1 hm1 => ?_⟩
          · rcases List.mem_cons.mp hq with hqp | hqm
            · subst hqp; exact hmp
            · exact ihA q hqm hq0
          · injection hm1 with hm1
            subst hm1
            omega
        · by_cases hcond : (refreshedDomain s p).length =
              (refreshedDomain s m0).length ∧ degAt s p > degAt s m0
          · have hstep : mrvSpecStep s (some m0) p = some p := by
              simp only [mrvSpecStep, if_pos hps, if_neg hlt, if_pos hcond]
            have hmp := ihB p hstep
            refine ⟨fun q hq hq0 => ?_, fun m1 hm1 => ?_⟩
            · rcases List.mem_cons.mp hq with hqp | hqm
              · subst hqp; exact hmp
              · exact ihA q hqm hq0
            · injection hm1 with hm1
              subst hm1
              omega
          · have hstep : mrvSpecStep s (some m0) p = some m0 := by
              simp only [mrvSpecStep, if_pos hps, if_neg hlt, if_neg hcond]
            have hmm0 := ihB m0 hstep
            refine ⟨fun q hq hq0 => ?_, fun m1 hm1 => ?_⟩
            · rcases List.mem_cons.mp hq with hqp | hqm
              · subst hqp; omega
              · exact ihA q hqm hq0
            · injection hm1 with hm1
              subst hm1
              exact hmm0
    · have hstep : mrvSpecStep s mc p = mc := by simp [mrvSpecStep, hps]
      rw [hstep] at ihB
      refine ⟨fun q hq hq0 => ?_, ihB⟩
      rcases List.mem_cons.mp hq with hqp | hqm
      · subst hqp; exact absurd hq0 hps
      · exact ihA q hqm hq0

theorem find_less_poss_isSome {s : St} (h : ∃ p, curAt s p = 0) :
    (find_less_poss s).1.isSome = true := by
  rw [find_less_poss_fst]
  obtain ⟨p, hp⟩ := h
  exact mrvSpec_fold_isSome s _ none (Or.inr ⟨p, List.mem_finRange p, hp⟩)

theorem find_less_poss_some_unassigned {s : St} {c : Fin 81}
    (h : (find_less_poss s).1 = some c) : curAt s c = 0 := by
  rw [find_less_poss_fst] at h
  exact mrvSpec_fold_unassigned s _ none (fun m hm => by cases hm) c h

theorem find_less_poss_min {s : St} {c : Fin 81}
    (h : (find_less_poss s).1 = some c) :
    ∀ q, curAt s q = 0 →
      (refreshedDomain s c).length ≤ (refreshedDomain s q).length := by
  rw [find_less_poss_fst] at h
  intro q hq
  exact (mrvSpec_fold_min s _ none c h).1 q (List.mem_finRange q) hq

/-! ## The backtracking engine

The fold inside `find_less_poss` must not be unfolded while its argument is a
symbolic state (the 81 stuck iterations blow up definitional unfolding); the
attribute below is local to this section and only steers the elaborator, it does
not change what the functions compute. -/

section BacktrackProofs

attribute [local irreducible] find_less_poss

theorem backtrack_succ_solved (f : Nat) (s : St) (h : board_is_solved s = true) :
    backtrack_with_min_val (f + 1) s = some (true, s) := by
  rw [backtrack_with_min_val]
  rw [if_pos h]

theorem backtrack_succ_none (f : Nat) (s : St) (s1 : St)
    (h1 : board_is_solved s = false) (hflp : find_less_poss s = (none, s1)) :
    backtrack_with_min_val (f + 1) s = none := by
  rw [backtrack_with_min_val, h1, hflp]
  rfl

theorem backtrack_succ_some (f : Nat) (s : St) (c : Fin 81) (s1 : St)
    (h1 : board_is_solved s = false) (hflp : find_less_poss s = (some c, s1)) :
    backtrack_with_min_val (f + 1) s =
      if (initial_values s1 (find_neighbors c) c).1 = [] then
        some (false, (initial_values s1 (find_neighbors c) c).2)
      else
        tryValues (backtrack_with_min_val f) c
          (orderedValues (initial_values s1 (find_neighbors c) c).2 c)
          (initial_values s1 (find_neighbors c) c).2 := by
  rw [backtrack_with_min_val, h1, hflp]
  rfl

theorem board_is_solved_iff {s : St} :
    board_is_solved s = true ↔ ∀ p, curAt s p ≠ 0 := by
  unfold board_is_solved
  rw [List.all_eq_true]
  constructor
  · intro h p
    have := h p (List.mem_finRange p)
    simpa using this
  · intro h p _
    simpa using h p

theorem is_allowed_iff {s : St} {c : Fin 81} {v : Nat} :
    is_allowed s c v = true ↔ ∀ q ∈ find_neighbors c, curAt s q ≠ v := by
  unfold is_allowed
  rw [List.all_eq_true]
  constructor
  · intro h q hq
    have := h q hq
    simpa using this
  · intro h q hq
    simpa using h q hq

theorem tryValues_nil (recur : St → Option (Bool × St)) (c : Fin 81) (s : St) :
    tryValues recur c [] s = some (false, setCurAt c 0 s) := rfl

theorem tryValues_cons (recur : St → Option (Bool × St)) (c : Fin 81) (v : Nat)
    (rest : List Nat) (s : St) :
    tryValues recur c (v :: rest) s =
      if is_allowed s c v then
        match recur (setCurAt c v s) with
        | none => none
        | some (true, t) => some (true, t)
        | some (false, t) => tryValues recur c rest t
      else tryValues recur c rest s := rfl

theorem tryValues_false_pres (recur : St → Option (Bool × St))
    (hrec : ∀ a b, recur a = some (false, b) → ∀ p, curAt b p = curAt a p)
    (c : Fin 81) :
    ∀ (vals : List Nat) (s t : St),
      tryValues recur c vals s = some (false, t) →
      ∀ p, curAt t p = if p = c then 0 else curAt s p := by
  intro vals
  induction vals with
  | nil =>
    intro s t h p
    rw [tryValues_nil] at h
    injection h with h
    injection h with h1 h2
    rw [← h2, curAt_setCurAt]
  | cons v rest ih =>
    intro s t h p
    rw [tryValues_cons] at h
    by_cases ha : is_allowed s c v = true
    · rw [if_pos ha] at h
      cases hr : recur (setCurAt c v s) with
      | none => rw [hr] at h; cases h
      | some r =>
        rcases r with ⟨b, t1⟩
        cases b
        · rw [hr] at h
          have hp1 := ih t1 t h p
          have hpres := hrec _ _ hr
          rw [hp1]
          by_cases hpc : p = c
          · rw [if_pos hpc, if_pos hpc]
          · rw [if_neg hpc, if_neg hpc, hpres p, curAt_setCurAt, if_neg hpc]
        · rw [hr] at h
          injection h with h
          injection h with h1 h2
          cases h1
    · rw [if_neg ha] at h
      exact ih s t h p

theorem backtrack_false_pres :
    ∀ (f : Nat) (s t : St), backtrack_with_min_val f s = some (false, t) →
      ∀ p, curAt t p = curAt s p := by
  intro f
  induction f with
  | zero => intro s t h; cases h
  | succ f ih =>
    intro s t h p
    by_cases hsolved : board_is_solved s = true
    · rw [backtrack_succ_solved f s hsolved] at h
      injection h with h
      injection h with h1 h2
      cases h1
    · rw [Bool.not_eq_true] at hsolved
      rcases hflp : find_less_poss s with ⟨mc, s1⟩
      cases mc with
      | none => rw [backtrack_succ_none f s s1 hsolved hflp] at h; cases h
      | some c =>
        rw [backtrack_succ_some f s c s1 hsolved hflp] at h
        have hs1 : ∀ q, curAt s1 q = curAt s q := by
          intro q
          have : s1 = (find_less_poss s).2 := by rw [hflp]
          rw [this]
          exact find_less_poss_cur s q
        have hsel : curAt s c = 0 := by
          refine find_less_poss_some_unassigned ?_
          rw [hflp]
        by_cases hdom : (initial_values s1 (find_neighbors c) c).1 = []
        · rw [if_pos hdom] at h
          injection h with h
          injection h with h1 h2
          rw [← h2, curAt_initial_values]
          exact hs1 p
        · rw [if_neg hdom] at h
          have hstep := tryValues_false_pres (backtrack_with_min_val f)
            (fun a b hab => ih a b hab) c _ _ _ h p
          rw [hstep]
          by_cases hpc : p = c
          · rw [if_pos hpc, hpc]
            exact hsel.symm
          · rw [if_neg hpc, curAt_initial_values]
            exact hs1 p

theorem filter_count_drop {b s : St} {c : Fin 81}
    (hs : curAt s c = 0) (hb : curAt b c ≠ 0)
    (hagree : ∀ p, p ≠ c → (curAt b p = 0 ↔ curAt s p = 0)) :
    ∀ (l : List (Fin 81)), l.Nodup → c ∈ l →
      (l.filter fun p => decide (curAt b p = 0)).length + 1 =
        (l.filter fun p => decide (curAt s p = 0)).length := by
  intro l
  induction l with
  | nil => intro _ h; exact absurd h (List.not_mem_nil c)
  | cons x l ih =>
    intro hnd hc
    have hnd1 := List.nodup_cons.mp hnd
    by_cases hxc : x = c
    · subst hxc
      have hfilter : (l.filter fun p => decide (curAt b p = 0)) =
          (l.filter fun p => decide (curAt s p = 0)) := by
        refine List.filter_congr fun p hp => ?_
        have hpne : p ≠ x := fun h => hnd1.1 (h ▸ hp)
        exact decide_eq_decide.mpr (hagree p hpne)
      rw [List.filter_cons, List.filter_cons, hfilter]
      simp [hb, hs]
    · have hcl : c ∈ l := by
        rcases List.mem_cons.mp hc with h | h
        · exact absurd h.symm hxc
        · exact h
      rw [List.filter_cons, List.filter_cons]
      have hagx := hagree x hxc
      by_cases hx : curAt s x = 0
      · have hbx : curAt b x = 0 := hagx.mpr hx
        have e1 : (decide (curAt b x = 0)) = true := by simp [hbx]
        have e2 : (decide (curAt s x = 0)) = true := by simp [hx]
        rw [e1, e2, if_pos rfl, if_pos rfl]
        simp only [List.length_cons]
        have := ih hnd1.2 hcl
        omega
      · have hbx : ¬ curAt b x = 0 := fun h => hx (hagx.mp h)
        have e1 : (decide (curAt b x = 0)) = false := by simp [hbx]
        have e2 : (decide (curAt s x = 0)) = false := by simp [hx]
        rw [e1, e2]
        simp only [Bool.false_eq_true, if_false]
        exact ih hnd1.2 hcl

theorem unassignedCount_set {s a : St} {c : Fin 81} {v : Nat}
    (hs : curAt s c = 0) (hv : v ≠ 0)
    (hagree : ∀ p, p ≠ c → curAt a p = curAt s p) :
    unassignedCount (setCurAt c v a) + 1 = unassignedCount s := by
  refine filter_count_drop hs ?_ ?_ (List.finRange 81) (List.nodup_finRange 81)
    (List.mem_finRange c)
  · rw [curAt_setCurAt, if_pos rfl]
    exact hv
  · intro p hp
    rw [curAt_setCurAt, if_neg hp, hagree p hp]

theorem unassignedCount_congr {a b : St}
    (h : ∀ p, curAt a p = curAt b p) : unassignedCount a = unassignedCount b := by
  unfold unassignedCount
  rw [List.filter_congr fun p _ => decide_eq_decide.mpr (by rw [h p])]

theorem unassignedCount_le (s : St) : unassignedCount s ≤ 81 := by
  have h := List.length_filter_le (fun p => decide (curAt s p = 0)) (List.finRange 81)
  simpa [unassignedCount] using h

theorem tryValues_isSome (recur : St → Option (Bool × St)) (f : Nat) (s : St)
    (c : Fin 81)
    (hrec_pres : ∀ a b, recur a = some (false, b) → ∀ p, curAt b p = curAt a p)
    (hrec_some : ∀ a, unassignedCount a < f → (recur a).isSome = true)
    (hsc : curAt s c = 0) (hcount : unassignedCount s < f + 1) :
    ∀ (vals : List Nat), (∀ v ∈ vals, v ≠ 0) →
      ∀ (a : St), (∀ p, p ≠ c → curAt a p = curAt s p) →
        (tryValues recur c vals a).isSome = true := by
  intro vals
  induction vals with
  | nil =>
    intro _ a _
    rw [tryValues_nil]
    rfl
  | cons v rest ih =>
    intro hv a hinv
    rw [tryValues_cons]
    by_cases ha : is_allowed a c v = true
    · rw [if_pos ha]
      have hvne : v ≠ 0 := hv v (List.mem_cons_self v rest)
      have hcount2 : unassignedCount (setCurAt c v a) < f := by
        have := unassignedCount_set hsc hvne hinv
        omega
      have hr := hrec_some _ hcount2
      cases hrec : recur (setCurAt c v a) with
      | none => rw [hrec] at hr; cases hr
      | some r =>
        rcases r with ⟨b, t⟩
        cases b
        · have hpres := hrec_pres _ _ hrec
          exact ih (fun w hw => hv w (List.mem_cons_of_mem v hw)) t
            fun p hp => by rw [hpres p, curAt_setCurAt, if_neg hp]; exact hinv p hp
        · rfl
    · rw [if_neg ha]
      exact ih (fun w hw => hv w (List.mem_cons_of_mem v hw)) a hinv

theorem backtrack_isSome :
    ∀ (f : Nat) (s : St), unassignedCount s < f →
      (backtrack_with_min_val f s).isSome = true := by
  intro f
  induction f with
  | zero => intro s h; omega
  | succ f ih =>
    intro s hcount
    by_cases hsolved : board_is_solved s = true
    · rw [backtrack_succ_solved f s hsolved]
      rfl
    · rw [Bool.not_eq_true] at hsolved
      have hex : ∃ p, curAt s p = 0 := by
        by_contra hno
        push_neg at hno
        rw [board_is_solved_iff.mpr hno] at hsolved
        cases hsolved
      have hsome := find_less_poss_isSome hex
      rcases hflp : find_less_poss s with ⟨mc, s1⟩
      cases mc with
      | none =>
        rw [hflp] at hsome
        cases hsome
      | some c =>
        have hs1 : ∀ q, curAt s1 q = curAt s q := by
          intro q
          have hq : s1 = (find_less_poss s).2 := by rw [hflp]
          rw [hq]
          exact find_less_poss_cur s q
        have hsel : curAt s c = 0 := by
          refine find_less_poss_some_unassigned ?_
          rw [hflp]
        rw [backtrack_succ_some f s c s1 hsolved hflp]
        by_cases hdom : (initial_values s1 (find_neighbors c) c).1 = []
        · rw [if_pos hdom]
          rfl
        · rw [if_neg hdom]
          have hcount2 : unassignedCount (initial_values s1 (find_neighbors c) c).2 <
              f + 1 := by
            have : unassignedCount (initial_values s1 (find_neighbors c) c).2 =
                unassignedCount s :=
              unassignedCount_congr fun p => by rw [curAt_initial_values]; exact hs1 p
            omega
          have hsc2 : curAt (initial_values s1 (find_neighbors c) c).2 c = 0 := by
            rw [curAt_initial_values]
            rw [hs1 c]
            exact hsel
          refine tryValues_isSome (backtrack_with_min_val f) f
            (initial_values s1 (find_neighbors c) c).2 c
            (fun a b hab => backtrack_false_pres f a b hab) ih hsc2 hcount2
            (orderedValues (initial_values s1 (find_neighbors c) c).2 c) ?_
            (initial_values s1 (find_neighbors c) c).2 (fun p _ => rfl)
          intro v hvmem
          have hvdom := mem_orderedValues hvmem
          rw [domAt_initial_values_self] at hvdom
          have := initial_values_pos hvdom
          omega

theorem tryValues_true (recur : St → Option (Bool × St)) (c : Fin 81) (s : St)
    (hrec_pres : ∀ a b, recur a = some (false, b) → ∀ p, curAt b p = curAt a p) :
    ∀ (vals : List Nat) (a : St), (∀ p, p ≠ c → curAt a p = curAt s p) →
      ∀ t, tryValues recur c vals a = some (true, t) →
        ∃ v a1, v ∈ vals ∧ (∀ p, p ≠ c → curAt a1 p = curAt s p) ∧
          is_allowed a1 c v = true ∧ recur (setCurAt c v a1) = some (true, t) := by
  intro vals
  induction vals with
  | nil =>
    intro a _ t h
    rw [tryValues_nil] at h
    injection h with h
    injection h with h1 h2
    cases h1
  | cons v rest ih =>
    intro a hinv t h
    rw [tryValues_cons] at h
    by_cases ha : is_allowed a c v = true
    · rw [if_pos ha] at h
      cases hrec : recur (setCurAt c v a) with
      | none => rw [hrec] at h; cases h
      | some r =>
        rcases r with ⟨b, t1⟩
        cases b
        · rw [hrec] at h
          have hpres := hrec_pres _ _ hrec
          obtain ⟨v1, a1, hv1, hinv1, ha1, hr1⟩ := ih t1
            (fun p hp => by rw [hpres p, curAt_setCurAt, if_neg hp]; exact hinv p hp)
            t h
          exact ⟨v1, a1, List.mem_cons_of_mem v hv1, hinv1, ha1, hr1⟩
        · rw [hrec] at h
          injection h with h
          injection h with h1 h2
          subst h2
          exact ⟨v, a, List.mem_cons_self v rest, hinv, ha, hrec⟩
    · rw [if_neg ha] at h
      obtain ⟨v1, a1, hv1, hinv1, ha1, hr1⟩ := ih a hinv t h
      exact ⟨v1, a1, List.mem_cons_of_mem v hv1, hinv1, ha1, hr1⟩

theorem backtrack_true_inv :
    ∀ (f : Nat) (s t : St), backtrack_with_min_val f s = some (true, t) →
      (∀ p, curAt s p ≠ 0 → curAt t p = curAt s p) ∧
      (∀ p, curAt t p ≠ 0) ∧
      (∀ p, curAt s p = 0 → 1 ≤ curAt t p ∧ curAt t p ≤ 9) ∧
      (∀ p q, q ∈ find_neighbors p → curAt s p = 0 ∨ curAt s q = 0 →
        curAt t p ≠ curAt t q) := by
  intro f
  induction f with
  | zero => intro s t h; cases h
  | succ f ih =>
    intro s t h
    by_cases hsolved : board_is_solved s = true
    · rw [backtrack_succ_solved f s hsolved] at h
      injection h with h
      injection h with h1 h2
      subst h2
      have hall := board_is_solved_iff.mp hsolved
      refine ⟨fun p _ => rfl, hall, fun p hp => absurd hp (hall p), ?_⟩
      intro p q _ hz
      rcases hz with hz | hz
      · exact absurd hz (hall p)
      · exact absurd hz (hall q)
    · rw [Bool.not_eq_true] at hsolved
      rcases hflp : find_less_poss s with ⟨mc, s1⟩
      cases mc with
      | none => rw [backtrack_succ_none f s s1 hsolved hflp] at h; cases h
      | some c =>
        rw [backtrack_succ_some f s c s1 hsolved hflp] at h
        have hs1 : ∀ q, curAt s1 q = curAt s q := by
          intro q
          have hq : s1 = (find_less_poss s).2 := by rw [hflp]
          rw [hq]
          exact find_less_poss_cur s q
        have hsel : curAt s c = 0 := by
          refine find_less_poss_some_unassigned ?_
          rw [hflp]
        by_cases hdom : (initial_values s1 (find_neighbors c) c).1 = []
        · rw [if_pos hdom] at h
          injection h with h
          injection h with h1 h2
          cases h1
        · rw [if_neg hdom] at h
          obtain ⟨v, a1, hvmem, hinv1, hallow, hrec⟩ :=
            tryValues_true (backtrack_with_min_val f) c s
              (fun a b hab => backtrack_false_pres f a b hab)
              (orderedValues (initial_values s1 (find_neighbors c) c).2 c)
              (initial_values s1 (find_neighbors c) c).2
              (fun p _ => by rw [curAt_initial_values]; exact hs1 p) t h
          have hvdom : v ∈ (initial_values s1 (find_neighbors c) c).1 := by
            have := mem_orderedValues hvmem
            rwa [domAt_initial_values_self] at this
          have hv19 := initial_values_pos hvdom
          have hvne : v ≠ 0 := by omega
          obtain ⟨ih1, ih2, ih3, ih4⟩ := ih (setCurAt c v a1) t hrec
          have hs2c : curAt (setCurAt c v a1) c = v := by
            rw [curAt_setCurAt, if_pos rfl]
          have hs2 : ∀ p, p ≠ c → curAt (setCurAt c v a1) p = curAt s p := by
            intro p hp
            rw [curAt_setCurAt, if_neg hp]
            exact hinv1 p hp
          have hallow2 := is_allowed_iff.mp hallow
          refine ⟨?_, ih2, ?_, ?_⟩
          · intro p hp
            have hpc : p ≠ c := fun hh => hp (hh ▸ hsel)
            have : curAt (setCurAt c v a1) p ≠ 0 := by
              rw [hs2 p hpc]
              exact hp
            rw [ih1 p this, hs2 p hpc]
          · intro p hp
            by_cases hpc : p = c
            · have hnz : curAt (setCurAt c v a1) c ≠ 0 := by rw [hs2c]; exact hvne
              rw [hpc, ih1 c hnz, hs2c]
              omega
            · have : curAt (setCurAt c v a1) p = 0 := by rw [hs2 p hpc]; exact hp
              exact ih3 p this
          · intro p q hnbr hz
            by_cases hz2 : curAt (setCurAt c v a1) p = 0 ∨ curAt (setCurAt c v a1) q = 0
            · exact ih4 p q hnbr hz2
            · push_neg at hz2
              obtain ⟨hz2p, hz2q⟩ := hz2
              have hnz : curAt (setCurAt c v a1) c ≠ 0 := by rw [hs2c]; exact hvne
              rcases hz with hzp | hzq
              · have hpc : p = c := by
                  by_contra hpc
                  rw [hs2 p hpc, hzp] at hz2p
                  exact hz2p rfl
                have hnbrc : q ∈ find_neighbors c := by rw [← hpc]; exact hnbr
                have hqc : ¬ q = c := fun hh =>
                  self_not_mem_find_neighbors c (hh ▸ hnbrc)
                rw [hpc, ih1 c hnz, hs2c, ih1 q hz2q, curAt_setCurAt, if_neg hqc]
                exact fun he => hallow2 q hnbrc he.symm
              · have hqc : q = c := by
                  by_contra hqc
                  rw [hs2 q hqc, hzq] at hz2q
                  exact hz2q rfl
                have hnbrc : c ∈ find_neighbors p := by rw [← hqc]; exact hnbr
                have hpc : ¬ p = c := fun hh =>
                  self_not_mem_find_neighbors c (by rw [hh] at hnbrc; exact hnbrc)
                have hpnbr : p ∈ find_neighbors c := find_neighbors_symm.mp hnbrc
                rw [hqc, ih1 c hnz, hs2c, ih1 p hz2p, curAt_setCurAt, if_neg hpc]
                exact hallow2 p hpnbr

/-! ## Rows, columns and boxes as cliques of the constraint graph -/

theorem rowOf_rowPos (r i : Fin 9) : rowOf (rowPos r i) = r.val := by
  show (9 * r.val + i.val) / 9 = r.val
  have := i.isLt
  omega

theorem colOf_colPos (c i : Fin 9) : colOf (colPos c i) = c.val := by
  show (9 * i.val + c.val) % 9 = c.val
  have := c.isLt
  omega

theorem boxOf_boxPos (b i : Fin 9) : boxOf (boxPos b i) = b.val := by
  show 3 * ((9 * (3 * (b.val / 3) + i.val / 3) + (3 * (b.val % 3) + i.val % 3)) / 9 / 3)
      + (9 * (3 * (b.val / 3) + i.val / 3) + (3 * (b.val % 3) + i.val % 3)) % 9 / 3
    = b.val
  have := b.isLt
  have := i.isLt
  omega

theorem rowPos_inj {r i j : Fin 9} (h : rowPos r i = rowPos r j) : i = j := by
  apply Fin.ext
  have hval : (rowPos r i).val = (rowPos r j).val := by rw [h]
  show i.val = j.val
  simp only [rowPos] at hval
  omega

theorem colPos_inj {c i j : Fin 9} (h : colPos c i = colPos c j) : i = j := by
  apply Fin.ext
  have hval : (colPos c i).val = (colPos c j).val := by rw [h]
  show i.val = j.val
  simp only [colPos] at hval
  have := i.isLt
  have := j.isLt
  omega

theorem boxPos_inj {b i j : Fin 9} (h : boxPos b i = boxPos b j) : i = j := by
  apply Fin.ext
  have hval : (boxPos b i).val = (boxPos b j).val := by rw [h]
  show i.val = j.val
  simp only [boxPos] at hval
  have := i.isLt
  have := j.isLt
  omega

theorem rowPos_nbr {r i j : Fin 9} (h : i ≠ j) :
    rowPos r j ∈ find_neighbors (rowPos r i) := by
  rw [mem_find_neighbors_iff]
  refine ⟨fun he => h (rowPos_inj he.symm), Or.inr (Or.inl ?_)⟩
  rw [rowOf_rowPos, rowOf_rowPos]

theorem colPos_nbr {c i j : Fin 9} (h : i ≠ j) :
    colPos c j ∈ find_neighbors (colPos c i) := by
  rw [mem_find_neighbors_iff]
  refine ⟨fun he => h (colPos_inj he.symm), Or.inr (Or.inr ?_)⟩
  rw [colOf_colPos, colOf_colPos]

theorem boxPos_nbr {b i j : Fin 9} (h : i ≠ j) :
    boxPos b j ∈ find_neighbors (boxPos b i) := by
  rw [mem_find_neighbors_iff]
  refine ⟨fun he => h (boxPos_inj he.symm), Or.inl ?_⟩
  rw [boxOf_boxPos, boxOf_boxPos]

theorem line_count (t : St) (pos : Fin 9 → Fin 81)
    (hval : ∀ i, 1 ≤ curAt t (pos i) ∧ curAt t (pos i) ≤ 9)
    (hdist : ∀ i j, i ≠ j → curAt t (pos i) ≠ curAt t (pos j)) :
    ∀ v, 1 ≤ v → v ≤ 9 →
      ((List.finRange 9).map fun i => curAt t (pos i)).count v = 1 := by
  intro v h1 h9
  have hnd : ((List.finRange 9).map fun i => curAt t (pos i)).Nodup := by
    refine List.Nodup.map_on ?_ (List.nodup_finRange 9)
    intro i _ j _ hij
    by_contra hne
    exact hdist i j hne hij
  have hlen : ((List.finRange 9).map fun i => curAt t (pos i)).length = 9 := by
    simp
  have hsub : ((List.finRange 9).map fun i => curAt t (pos i)).toFinset ⊆
      Finset.Icc 1 9 := by
    intro x hx
    rw [List.mem_toFinset, List.mem_map] at hx
    obtain ⟨i, _, hi⟩ := hx
    rw [Finset.mem_Icc]
    rw [← hi]
    exact hval i
  have hcard : (Finset.Icc 1 9 : Finset Nat).card ≤
      ((List.finRange 9).map fun i => curAt t (pos i)).toFinset.card := by
    rw [List.toFinset_card_of_nodup hnd, hlen]
    simp
  have heq := Finset.eq_of_subset_of_card_le hsub hcard
  have hv : v ∈ ((List.finRange 9).map fun i => curAt t (pos i)).toFinset := by
    rw [heq, Finset.mem_Icc]
    exact ⟨h1, h9⟩
  rw [List.mem_toFinset] at hv
  exact List.count_eq_one_of_mem hnd hv

/-! ## Further facts about the clue string and `main`'s initialisation -/

theorem wfGo_of_alphabet :
    ∀ (cs : List Char) (k : Nat), k + cs.length ≤ 81 →
      (∀ ch ∈ cs, ch = '.' ∨ ch.isDigit = true) → wfGo k cs = true := by
  intro cs
  induction cs with
  | nil => intro k _ _; rfl
  | cons ch rest ih =>
    intro k hlen hab
    rcases hab ch (List.mem_cons_self ch rest) with h | h
    · rw [wfGo, if_pos h]
      exact ih (k + 1) (by simp only [List.length_cons] at hlen; omega)
        fun c hc => hab c (List.mem_cons_of_mem ch hc)
    · by_cases hdot : ch = '.'
      · rw [wfGo, if_pos hdot]
        exact ih (k + 1) (by simp only [List.length_cons] at hlen; omega)
          fun c hc => hab c (List.mem_cons_of_mem ch hc)
      · rw [wfGo, if_neg hdot]
        have hk : k < 81 := by simp only [List.length_cons] at hlen; omega
        rw [Bool.and_eq_true, Bool.and_eq_true]
        refine ⟨⟨by simp [hk], h⟩, ?_⟩
        exact ih (k + 1) (by simp only [List.length_cons] at hlen; omega)
          fun c hc => hab c (List.mem_cons_of_mem ch hc)

theorem foldl_setupStep_none (cs : List Char) :
    ∀ l : List (Fin 81), l.foldl (setupStep cs) none = none := by
  intro l
  induction l with
  | nil => rfl
  | cons p l ih => rw [List.foldl_cons]; exact ih

theorem setupBoard_wf {cs : List Char} {s : St} (h : setupBoard cs = some s) :
    wfGo 0 cs = true := by
  by_contra hwf
  rw [Bool.not_eq_true] at hwf
  have hfill : ∀ a : St, fill_initial_board a cs = none := by
    intro a
    have hi := fillGo_isSome cs 0 a
    rw [hwf] at hi
    show fillGo a 0 cs = none
    exact Option.not_isSome_iff_eq_none.mp (by rw [hi]; exact Bool.false_ne_true)
  have hstep : ∀ (a : St) (p : Fin 81), setupStep cs (some a) p = none := by
    intro a p
    show (match fill_initial_board (setDegAt p (count_assigned a p) a) cs with
      | none => none
      | some s2 => some ((initial_values s2 (find_neighbors p) p).2)) = none
    rw [hfill]
  unfold setupBoard at h
  rw [show List.finRange 81 = (0 : Fin 81) :: (List.finRange 80).map Fin.succ from
    List.finRange_succ_eq_map 80, List.foldl_cons, hstep,
    foldl_setupStep_none] at h
  cases h

theorem setupBoard_cur {cs : List Char} {s : St} (h : setupBoard cs = some s) :
    ∀ q, curAt s q = clueVal cs q := by
  obtain ⟨t, ht, hcur⟩ := setupBoard_char (setupBoard_wf h)
  rw [h] at ht
  injection ht with ht
  rw [ht]
  exact hcur

theorem char_digit_le9 {ch : Char} (h : ch.isDigit = true) : ch.toNat - 48 ≤ 9 := by
  simp only [Char.isDigit, Bool.and_eq_true, decide_eq_true_eq, ge_iff_le] at h
  obtain ⟨h1, h2⟩ := h
  rw [UInt32.le_def, BitVec.le_def] at h1 h2
  have h1n : 48 ≤ ch.val.toBitVec.toNat := by simpa using h1
  have h2n : ch.val.toBitVec.toNat ≤ 57 := by simpa using h2
  have he : ch.toNat = ch.val.toBitVec.toNat := rfl
  omega

theorem clueAtFrom_le9 :
    ∀ (cs : List Char) (k : Nat), wfGo k cs = true →
      ∀ (q : Fin 81) (d : Nat), clueAtFrom k cs q = some d → d ≤ 9 := by
  intro cs
  induction cs with
  | nil => intro k _ q d hd; cases hd
  | cons ch rest ih =>
    intro k hwf q d hd
    by_cases hdot : ch = '.'
    · rw [wfGo, if_pos hdot] at hwf
      rw [clueAtFrom, if_neg fun hc => hc.1 hdot] at hd
      exact ih (k + 1) hwf q d hd
    · rw [wfGo, if_neg hdot, Bool.and_eq_true, Bool.and_eq_true] at hwf
      obtain ⟨⟨_, hdig⟩, hrest⟩ := hwf
      unfold clueAtFrom at hd
      by_cases hq : ch ≠ '.' ∧ q.val = k
      · rw [if_pos hq] at hd
        injection hd with hd
        rw [← hd]
        exact char_digit_le9 hdig
      · rw [if_neg hq] at hd
        exact ih (k + 1) hrest q d hd

theorem clueVal_le9 {cs : List Char} (hwf : wfGo 0 cs = true) (q : Fin 81) :
    clueVal cs q ≤ 9 := by
  unfold clueVal
  cases hc : clueAtFrom 0 cs q with
  | none => exact Nat.zero_le 9
  | some d => exact clueAtFrom_le9 cs 0 hwf q d hc

/-! ## Claim theorems -/

/-- C2 (confirmed): whenever `backtrack_with_min_val` returns `False`, every
cell's `cur_val` at return equals its value at entry (the selected cell is reset
to 0, which was its entry value, and all deeper assignments have been undone);
and the search never raises: run with sufficient fuel (82 always suffices on an
81-cell board) it returns a boolean result, never the exception marker `none`. -/
theorem c2_failure_restores (f : Nat) (s : St) :
    (∀ t, backtrack_with_min_val f s = some (false, t) →
      ∀ p, curAt t p = curAt s p) ∧
    (solve_back s).isSome = true :=
  ⟨fun t h p => backtrack_false_pres f s t h p,
    backtrack_isSome 82 s (by have := unassignedCount_le s; omega)⟩

/-- C3 (confirmed): `initial_values` stores in the cell and returns exactly the
set `{1..9}` minus the values of the assigned (nonzero) neighbors — a full
recomputation from the current assignment; consequently no value of the
resulting domain equals the value of any assigned neighbor. -/
theorem c3_initial_values_domain (s : St) (nbs : List (Fin 81)) (c : Fin 81) :
    (domAt (initial_values s nbs c).2 c = (initial_values s nbs c).1) ∧
    ((initial_values s nbs c).1.toFinset =
      Finset.Icc 1 9 \ ((nbs.map (curAt s)).filter (fun v => v ≠ 0)).toFinset) ∧
    (∀ v ∈ (initial_values s nbs c).1, ∀ q ∈ nbs,
      curAt s q ≠ 0 → curAt s q ≠ v) := by
  refine ⟨domAt_initial_values_self s nbs c, ?_, ?_⟩
  · ext v
    rw [List.mem_toFinset, mem_initial_values, Finset.mem_sdiff, Finset.mem_Icc,
      List.mem_toFinset, List.mem_filter, List.mem_map]
    constructor
    · rintro ⟨⟨h1, h9⟩, hno⟩
      refine ⟨⟨h1, h9⟩, ?_⟩
      rintro ⟨⟨q, hq, hqv⟩, hvne⟩
      rw [decide_eq_true_eq] at hvne
      exact hno q hq (by rw [hqv]; exact hvne) (by rw [hqv])
    · rintro ⟨⟨h1, h9⟩, hno⟩
      refine ⟨⟨h1, h9⟩, fun q hq hqz hqv => ?_⟩
      exact hno ⟨⟨q, hq, hqv⟩, by rw [decide_eq_true_eq, ← hqv]; exact hqz⟩
  · intro v hv q hq hqz
    exact (mem_initial_values.mp hv).2 q hq hqz

/-- C4 (confirmed): `find_less_poss` refreshes the domain of every unassigned
cell with `initial_values` (leaving assigned cells' domains untouched) and its
selection coincides with the specification-side `find_less_poss_spec`, the scan
written from the claim's words (strictly smaller refreshed domain wins; on equal
sizes a challenger with strictly larger `assigned_neigh` snapshot wins, the
incumbent being kept on equal counts); the selected cell is unassigned and its
refreshed domain size is minimal among all unassigned cells, and a cell is
always returned when one is unassigned. -/
theorem c4_mrv_selection (s : St) :
    ((find_less_poss s).1 = find_less_poss_spec s) ∧
    (∀ q, curAt s q = 0 → domAt (find_less_poss s).2 q = refreshedDomain s q) ∧
    (∀ q, curAt s q ≠ 0 → domAt (find_less_poss s).2 q = domAt s q) ∧
    (∀ c, (find_less_poss s).1 = some c → curAt s c = 0 ∧
      ∀ q, curAt s q = 0 →
        (refreshedDomain s c).length ≤ (refreshedDomain s q).length) ∧
    ((∃ p, curAt s p = 0) → (find_less_poss s).1.isSome = true) :=
  ⟨find_less_poss_fst s,
    fun q hq => find_less_poss_dom_refreshed s q hq,
    fun q hq => find_less_poss_dom_keep s q hq,
    fun c hc => ⟨find_less_poss_some_unassigned hc, find_less_poss_min hc⟩,
    fun hex => find_less_poss_isSome hex⟩

/-- C5 (confirmed): the candidate order tried by the search is `orderedValues`:
`least_constr_val` exactly when the domain holds more than one value, the domain
itself otherwise; and `least_constr_val` is a permutation of the domain, sorted
ascending by the constraint score (number of unassigned neighbors whose domain
contains the value), with equal-score values kept in their domain order (the
filtered subsequences at each score agree). -/
theorem c5_lcv_ordering (s : St) (c : Fin 81) :
    (orderedValues s c =
      if 1 < (domAt s c).length then least_constr_val s c else domAt s c) ∧
    (least_constr_val s c).Perm (domAt s c) ∧
    (least_constr_val s c).Pairwise
      (fun a b => lcvScore s c a ≤ lcvScore s c b) ∧
    (∀ k, (least_constr_val s c).filter (fun v => lcvScore s c v == k) =
      (domAt s c).filter (fun v => lcvScore s c v == k)) :=
  ⟨rfl, least_constr_val_perm s c, least_constr_val_sorted s c,
    least_constr_val_stable s c⟩

/-- C7 (confirmed): the constraint graph built by `find_neighbors` gives every
cell exactly 20 distinct neighbors (same row, column or box, itself excluded)
and is symmetric.  In the embedding the neighbor lists are a fixed function of
the position — the source writes `cell.neighbors` only inside `find_neighbors`
(line 127), and no later operation of the search mutates them. -/
theorem c7_neighbor_graph (p : Fin 81) :
    (find_neighbors p).length = 20 ∧ (find_neighbors p).Nodup ∧
    ∀ q, q ∈ find_neighbors p ↔ p ∈ find_neighbors q :=
  ⟨find_neighbors_length p, find_neighbors_nodup p,
    fun _ => find_neighbors_symm⟩

/-- C8 (confirmed): the search terminates, with recursion depth bounded by one
plus the number of unassigned cells at entry: fuel exceeding that count is never
exhausted (every recursive call follows the assignment of a nonzero value to a
previously unassigned cell), and since at most 81 cells are unassigned, depth
82 always suffices. -/
theorem c8_termination_depth (f : Nat) (s : St) :
    (unassignedCount s < f → (backtrack_with_min_val f s).isSome = true) ∧
    unassignedCount s ≤ 81 ∧
    (backtrack_with_min_val 82 s).isSome = true :=
  ⟨backtrack_isSome f s, unassignedCount_le s,
    backtrack_isSome 82 s (by have := unassignedCount_le s; omega)⟩

/-- C9 (corrected): `fill_initial_board` performs no length validation.  It
returns normally exactly when every non-`'.'` character is a digit lying at an
index below 81 (`wfGo`), so clue strings shorter than 81 symbols (or longer
ones padded with `'.'`) are accepted silently; only a non-digit character
(ValueError) or a digit at index 81 or beyond (IndexError) raises.  Any string
of at most 81 symbols over `{'.', '0'..'9'}` is accepted, and on success from a
fresh board each clue digit lands on its row-major cell while all other cells
stay 0. -/
theorem c9_fill_validation (cs : List Char) (s : St) :
    ((fill_initial_board s cs).isSome = wfGo 0 cs) ∧
    (cs.length ≤ 81 → (∀ ch ∈ cs, ch = '.' ∨ ch.isDigit = true) →
      wfGo 0 cs = true) ∧
    (∀ t, fill_initial_board freshBoard cs = some t →
      ∀ q, curAt t q = (clueAtFrom 0 cs q).getD 0) := by
  refine ⟨fillGo_isSome cs 0 s,
    fun hlen hab => wfGo_of_alphabet cs 0 (by omega) hab, ?_⟩
  intro t ht q
  have hwf : wfGo 0 cs = true := by
    rw [← fillGo_isSome cs 0 freshBoard]
    rw [show fillGo freshBoard 0 cs = fill_initial_board freshBoard cs from rfl, ht]
    rfl
  obtain ⟨t2, ht2, hcur, _, _⟩ := fill_initial_board_char hwf freshBoard
  rw [ht] at ht2
  injection ht2 with ht2
  rw [ht2]
  exact hcur q

/-- C10 (confirmed): `find_less_poss` is invoked by `backtrack_with_min_val`
only under a failed `board_is_solved` test (visible in the definition), and
under that precondition some cell is unassigned, the scan returns an actual
cell (never the `None` signal), and the returned cell is unassigned, so the
subsequent `min_cell.neighbors` / `min_cell.values` accesses cannot fail. -/
theorem c10_selection_total (s : St) (h : board_is_solved s = false) :
    (∃ p, curAt s p = 0) ∧ (find_less_poss s).1.isSome = true ∧
    ∀ c, (find_less_poss s).1 = some c → curAt s c = 0 := by
  have hex : ∃ p, curAt s p = 0 := by
    by_contra hno
    push_neg at hno
    rw [board_is_solved_iff.mpr hno] at h
    cases h
  exact ⟨hex, find_less_poss_isSome hex,
    fun c hc => find_less_poss_some_unassigned hc⟩

/-- C6 (confirmed): every cell that received a nonzero clue from the clue
string at initialisation holds exactly that clue value after
`backtrack_with_min_val` returns, whether the search succeeds or fails: the
search selects only cells whose current value is 0 and the undo protocol
restores every cell it touched. -/
theorem c6_clue_preservation (cs : List Char) (s : St) (f : Nat) (b : Bool)
    (t : St) (p : Fin 81) (d : Nat)
    (hsetup : setupBoard cs = some s)
    (hclue : clueAtFrom 0 cs p = some d) (hd : d ≠ 0)
    (hrun : backtrack_with_min_val f s = some (b, t)) :
    curAt s p = d ∧ curAt t p = d := by
  have hs : curAt s p = d := by
    rw [setupBoard_cur hsetup p]
    unfold clueVal
    rw [hclue]
    rfl
  refine ⟨hs, ?_⟩
  cases b
  · rw [backtrack_false_pres f s t hrun p]
    exact hs
  · rw [(backtrack_true_inv f s t hrun).1 p (by rw [hs]; exact hd)]
    exact hs

/-- C1 (corrected; amended): on a board initialised from a clue string whose
nonzero clues are pairwise non-conflicting (no two equal clues share a row,
column or box), success of the search leaves all 81 cells holding values in
1..9 and every row, column and 3x3 box containing each of 1..9 exactly once.
The original unconditional claim is false: `board_is_solved` checks only that
no cell is 0, so a fully clued string with two identical clues in one row is
reported as success with an invalid board (see the counterexample). -/
theorem c1_success_implies_validity (cs : List Char) (s t : St)
    (hsetup : setupBoard cs = some s)
    (hcompat : ∀ p q, q ∈ find_neighbors p → curAt s p ≠ 0 → curAt s q ≠ 0 →
      curAt s p ≠ curAt s q)
    (hrun : solve_back s = some (true, t)) :
    (∀ p, 1 ≤ curAt t p ∧ curAt t p ≤ 9) ∧
    (∀ r : Fin 9, ∀ v : Nat, 1 ≤ v → v ≤ 9 →
      (rowVals t r).count v = 1 ∧ (colVals t r).count v = 1 ∧
        (boxVals t r).count v = 1) := by
  have hwf := setupBoard_wf hsetup
  have hcur := setupBoard_cur hsetup
  obtain ⟨inv1, inv2, inv3, inv4⟩ := backtrack_true_inv 82 s t hrun
  have hall : ∀ p, 1 ≤ curAt t p ∧ curAt t p ≤ 9 := by
    intro p
    by_cases hz : curAt s p = 0
    · exact inv3 p hz
    · rw [inv1 p hz]
      have h9 : curAt s p ≤ 9 := by rw [hcur p]; exact clueVal_le9 hwf p
      omega
  have hdistinct : ∀ p q, q ∈ find_neighbors p → curAt t p ≠ curAt t q := by
    intro p q hnbr
    by_cases hz : curAt s p = 0 ∨ curAt s q = 0
    · exact inv4 p q hnbr hz
    · push_neg at hz
      rw [inv1 p hz.1, inv1 q hz.2]
      exact hcompat p q hnbr hz.1 hz.2
  refine ⟨hall, fun r v h1 h9 => ⟨?_, ?_, ?_⟩⟩
  · exact line_count t (rowPos r) (fun i => hall (rowPos r i))
      (fun i j hij => hdistinct (rowPos r i) (rowPos r j) (rowPos_nbr hij)) v h1 h9
  · exact line_count t (colPos r) (fun i => hall (colPos r i))
      (fun i j hij => hdistinct (colPos r i) (colPos r j) (colPos_nbr hij)) v h1 h9
  · exact line_count t (boxPos r) (fun i => hall (boxPos r i))
      (fun i j hij => hdistinct (boxPos r i) (boxPos r j) (boxPos_nbr hij)) v h1 h9

end BacktrackProofs

/-! ## Counterexamples and concrete witnesses -/

set_option maxRecDepth 40000

/-- C1 counterexample: `csBad` carries two identical clues (`'1'`) in row 0,
yet the full pipeline — `main`'s initialisation followed by `solve_back` —
reports success, and the final board's row 0 contains the value 1 twice (so not
"each of 1..9 exactly once"). -/
theorem c1_counterexample :
    hasSameRowDupClues csBad.toList = true ∧
    (setupBoard csBad.toList).map
        (fun s => (solve_back s).map fun r => (r.1, (rowVals r.2 0).count 1)) =
      some (some (true, 2)) := by
  refine ⟨by decide, ?_⟩
  obtain ⟨sB, hsB, hcur⟩ := @setupBoard_char csBad.toList (by decide)
  have hvals : ∀ p : Fin 81,
      clueVal csBad.toList p = if p.val = 1 then 1 else baseGrid p := by decide
  have hsolved : board_is_solved sB = true := by
    rw [board_is_solved_iff]
    intro p
    rw [hcur p, hvals p]
    by_cases hp : p.val = 1
    · rw [if_pos hp]
      omega
    · rw [if_neg hp]
      show (3 * (rowOf p % 3) + rowOf p / 3 + colOf p) % 9 + 1 ≠ 0
      omega
  have hrun : solve_back sB = some (true, sB) := backtrack_succ_solved 81 sB hsolved
  rw [hsB, Option.map_some', hrun, Option.map_some']
  have hrow : rowVals sB 0 = (List.finRange 9).map
      fun i => if (rowPos 0 i).val = 1 then 1 else baseGrid (rowPos 0 i) := by
    unfold rowVals
    refine List.map_congr_left fun i _ => ?_
    rw [hcur (rowPos 0 i), hvals (rowPos 0 i)]
  rw [hrow]
  rw [show ((List.finRange 9).map
      fun i => if (rowPos 0 i).val = 1 then 1 else baseGrid (rowPos 0 i)).count 1 = 2
    from by decide]

/-- C1 witness: on the conflict-free fully solved clue string `csGood` the
amended theorem applies: the pipeline succeeds and the board is valid (checked
here for row 0 / value 5, column 3 / value 7 and box 8 / value 2, and cell 40's
range). -/
theorem c1_witness :
    (setupBoard csGood.toList).elim False fun s =>
      (solve_back s).elim False fun r =>
        r.1 = true ∧ 1 ≤ curAt r.2 40 ∧ curAt r.2 40 ≤ 9 ∧
        (rowVals r.2 0).count 5 = 1 ∧ (colVals r.2 3).count 7 = 1 ∧
        (boxVals r.2 8).count 2 = 1 := by
  obtain ⟨sG, hsG, hcur⟩ := @setupBoard_char csGood.toList (by decide)
  have hvals : ∀ p : Fin 81, clueVal csGood.toList p = baseGrid p := by decide
  have hsolved : board_is_solved sG = true := by
    rw [board_is_solved_iff]
    intro p
    rw [hcur p, hvals p]
    show (3 * (rowOf p % 3) + rowOf p / 3 + colOf p) % 9 + 1 ≠ 0
    omega
  have hrun : solve_back sG = some (true, sG) := backtrack_succ_solved 81 sG hsolved
  have hcompat : ∀ p q, q ∈ find_neighbors p → curAt sG p ≠ 0 → curAt sG q ≠ 0 →
      curAt sG p ≠ curAt sG q := by
    intro p q hnbr
    rw [hcur p, hcur q, hvals p, hvals q]
    intro _ _
    exact (by decide : ∀ p q : Fin 81,
        (q ≠ p ∧ (boxOf q = boxOf p ∨ rowOf q = rowOf p ∨ colOf q = colOf p)) →
        baseGrid p ≠ baseGrid q) p q (mem_find_neighbors_iff.mp hnbr)
  have hmain := c1_success_implies_validity csGood.toList sG sG hsG hcompat hrun
  rw [hsG, Option.elim_some, hrun, Option.elim_some]
  exact ⟨rfl, (hmain.1 40).1, (hmain.1 40).2,
    (hmain.2 0 5 (by omega) (by omega)).1,
    (hmain.2 3 7 (by omega) (by omega)).2.1,
    (hmain.2 8 2 (by omega) (by omega)).2.2⟩

/-- C2 witness: on the concrete dead-end board `stFail` the search returns
`False` and cell 0 (and in particular its entry value 0) is restored. -/
theorem c2_witness :
    (backtrack_with_min_val 82 stFail).map (fun r => (r.1, curAt r.2 0)) =
      some (false, 0) := by
  cases hr : backtrack_with_min_val 82 stFail with
  | none =>
    have h2 := (c2_failure_restores 82 stFail).2
    rw [show solve_back stFail = backtrack_with_min_val 82 stFail from rfl,
      hr] at h2
    cases h2
  | some r =>
    rcases r with ⟨b, t⟩
    have hfst : (backtrack_with_min_val 82 stFail).map Prod.fst = some false := by
      decide
    rw [hr, Option.map_some'] at hfst
    injection hfst with hfst
    cases b
    · have hp := (c2_failure_restores 82 stFail).1 t hr 0
      rw [Option.map_some', hp]
      rfl
    · cases hfst

/-- C3 witness: on the solved board `stSolved`, the recomputed domain of cell 0
is the singleton `[1]`, and neighbor 1 (assigned 2) indeed does not hold 1. -/
theorem c3_witness :
    1 ∈ (initial_values stSolved (find_neighbors 0) 0).1 ∧
    curAt stSolved 1 ≠ 1 :=
  ⟨by decide, (c3_initial_values_domain stSolved (find_neighbors 0) 0).2.2 1
    (by decide) 1 (by decide) (by decide)⟩

/-- C4 witness: on `stFail` the MRV scan agrees with its specification, and the
unassigned cell 0 has its domain refreshed by the scan. -/
theorem c4_witness :
    (find_less_poss stFail).1 = find_less_poss_spec stFail ∧
    curAt stFail 0 = 0 ∧
    domAt (find_less_poss stFail).2 0 = refreshedDomain stFail 0 :=
  ⟨(c4_mrv_selection stFail).1, by decide,
    (c4_mrv_selection stFail).2.1 0 (by decide)⟩

/-- C5 witness: cell 0 of `stFail` has a stored domain of nine values, so the
search orders it with `least_constr_val`, whose output is a permutation of the
domain. -/
theorem c5_witness :
    orderedValues stFail 0 = least_constr_val stFail 0 ∧
    (least_constr_val stFail 0).Perm (domAt stFail 0) := by
  constructor
  · rw [(c5_lcv_ordering stFail 0).1, if_pos (by decide : 1 < (domAt stFail 0).length)]
  · exact (c5_lcv_ordering stFail 0).2.1

/-- C6 witness: cell 0 of `csGood` is clued with 1, and after the search
returns (immediately, the board being full) it still holds 1. -/
theorem c6_witness :
    (setupBoard csGood.toList).elim False fun s =>
      curAt s 0 = 1 ∧ (backtrack_with_min_val 82 s).elim False fun r =>
        curAt r.2 0 = 1 := by
  obtain ⟨sG, hsG, hcur⟩ := @setupBoard_char csGood.toList (by decide)
  have hvals : ∀ p : Fin 81, clueVal csGood.toList p = baseGrid p := by decide
  have hsolved : board_is_solved sG = true := by
    rw [board_is_solved_iff]
    intro p
    rw [hcur p, hvals p]
    show (3 * (rowOf p % 3) + rowOf p / 3 + colOf p) % 9 + 1 ≠ 0
    omega
  have hrun : backtrack_with_min_val 82 sG = some (true, sG) :=
    backtrack_succ_solved 81 sG hsolved
  have hc := c6_clue_preservation csGood.toList sG 82 true sG 0 1 hsG
    (by decide) (by decide) hrun
  rw [hsG, Option.elim_some, hrun, Option.elim_some]
  exact ⟨hc.1, hc.2⟩

/-- C7 witness: cell 0 has 20 neighbors, and the symmetry instance
`1 ∈ neighbors 0 → 0 ∈ neighbors 1`. -/
theorem c7_witness :
    (find_neighbors 0).length = 20 ∧ (0 : Fin 81) ∈ find_neighbors 1 :=
  ⟨(c7_neighbor_graph 0).1, ((c7_neighbor_graph 0).2.2 1).mp (by decide)⟩

/-- C8 witness: the solved board `stSolved` has no unassigned cell, so fuel 1
(one frame) already suffices. -/
theorem c8_witness :
    unassignedCount stSolved < 1 ∧
    (backtrack_with_min_val 1 stSolved).isSome = true :=
  ⟨by decide, (c8_termination_depth 1 stSolved).1 (by decide)⟩

/-- C9 counterexample: the empty clue string has length 0, not 81, yet
`fill_initial_board` accepts it silently (returning the unchanged board), so
malformed lengths are not signalled at initialisation. -/
theorem c9_counterexample :
    (String.toList "").length ≠ 81 ∧
    fill_initial_board freshBoard (String.toList "") = some freshBoard :=
  ⟨by decide, rfl⟩

/-- C9 witness: the two-character digit string "12" is accepted (length is
never validated, and both characters are digits below index 81). -/
theorem c9_witness :
    (fill_initial_board freshBoard (String.toList "12")).isSome = true := by
  rw [(c9_fill_validation (String.toList "12") freshBoard).1]
  exact (c9_fill_validation (String.toList "12") freshBoard).2.1
    (by decide) (by decide)

/-- C10 witness: `stFail` is not solved, and the MRV scan returns an actual
cell. -/
theorem c10_witness :
    board_is_solved stFail = false ∧
    (find_less_poss stFail).1.isSome = true :=
  ⟨by decide, (c10_selection_total stFail (by decide)).2.1⟩
